import Mathlib

/-!
Verification of the weighted multi-bucket admission controller
(`src/rust/ccx/api/binance/src/client/rate_limiter.rs`).

Modelling conventions:
* `Instant` and `Duration` are modelled as `Nat` (nanosecond ticks).
  `Instant::duration_since` saturates at zero, which is exactly `Nat`
  subtraction.  The `Duration` subtraction `bucket.interval - elapsed`
  panics on underflow in Rust; the model surfaces that branch as the
  explicit outcome `RLFail.durationUnderflow`.
* Each call to `Instant::now()` consumes one increment from a `Clock`
  stream, so consecutive readings are nondecreasing and may coincide
  (increment 0) or strictly advance (increment >= 1).  `sleep d` adds
  `d` to the current time.
* The bucket map `HashMap<BucketName, Mutex<RateLimiterBucket>>` is an
  association list; mutations through the mutex are in-place updates
  threaded through the two passes, and persist even when a pass exits
  with an error, exactly as in the source.
-/

abbrev BucketName := String

structure Clock where
  time : Nat
  incs : Nat → Nat
  idx : Nat

def Clock.now (c : Clock) : Nat × Clock :=
  (c.time + c.incs c.idx, ⟨c.time + c.incs c.idx, c.incs, c.idx + 1⟩)

def Clock.sleep (c : Clock) (d : Nat) : Clock :=
  { c with time := c.time + d }

/-- A clock whose readings all return the fixed instant `t`: no time passes
between adjacent `Instant::now()` calls. -/
def zclock (t i : Nat) : Clock :=
  ⟨t, fun _ => 0, i⟩

structure RateLimiterBucket where
  time_instant : Nat
  delay : Nat
  interval : Nat
  limit : Nat
  amount : Nat
deriving Repr, DecidableEq

/-- `impl Default for RateLimiterBucket`: both `time_instant` and `delay`
are initialised to `Instant::now()`, `interval`, `limit` and `amount`
to zero. -/
def RateLimiterBucket.mkDefault (now1 now2 : Nat) : RateLimiterBucket :=
  ⟨now1, now2, 0, 0, 0⟩

/-- `RateLimiterBucket::reset_outdated`: reads `Instant::now()`, and when
`elapsed > interval` rolls the window by reading `Instant::now()` again
into `time_instant` and zeroing `amount`. -/
def RateLimiterBucket.reset_outdated (b : RateLimiterBucket) (c : Clock) :
    RateLimiterBucket × Clock :=
  let n := c.now.1
  let c1 := c.now.2
  if b.interval < n - b.time_instant then
    ({ b with time_instant := c1.now.1, amount := 0 }, c1.now.2)
  else
    (b, c1)

abbrev Buckets := List (BucketName × RateLimiterBucket)

def getBucket : Buckets → BucketName → Option RateLimiterBucket
  | [], _ => none
  | (k, b) :: rest, name => if k = name then some b else getBucket rest name

def updateBucket : Buckets → BucketName → RateLimiterBucket → Buckets
  | [], _, _ => []
  | (k, b) :: rest, name, b1 =>
      if k = name then (k, b1) :: rest else (k, b) :: updateBucket rest name b1

inductive RLFail where
  | undefinedBucket (name : BucketName)
  | durationUnderflow
deriving Repr, DecidableEq

namespace RateLimiter

/-- The loop body of `RateLimiter::timeout`: for each `(name, cost)` pair,
resolve the bucket (error on a missing name), check the activation delay
(note the source assigns `timeout = delay`, it does not take a maximum),
otherwise roll the window, and when `amount + cost` exceeds `limit`
accumulate `interval - elapsed` into the running timeout by maximum.
The `durationUnderflow` outcome is the Rust panic of `interval - elapsed`
when `elapsed > interval`. -/
def timeoutLoop (buckets : Buckets) (costs : List (BucketName × Nat))
    (tmo : Nat) (c : Clock) : Buckets × Clock × Except RLFail Nat :=
  match costs with
  | [] => (buckets, c, Except.ok tmo)
  | (name, cost) :: rest =>
    match getBucket buckets name with
    | none => (buckets, c, Except.error (RLFail.undefinedBucket name))
    | some bucket =>
      let n1 := c.now.1
      let c1 := c.now.2
      if bucket.delay - n1 ≠ 0 then
        timeoutLoop buckets rest (bucket.delay - n1) c1
      else
        let br := bucket.reset_outdated c1
        let bucket1 := br.1
        let c2 := br.2
        let buckets1 := updateBucket buckets name bucket1
        if bucket1.limit < bucket1.amount + cost then
          let n3 := c2.now.1
          let c3 := c2.now.2
          let elapsed := n3 - bucket1.time_instant
          if bucket1.interval < elapsed then
            (buckets1, c3, Except.error RLFail.durationUnderflow)
          else
            let bucket_timeout := bucket1.interval - elapsed
            timeoutLoop buckets1 rest
              (if tmo < bucket_timeout then bucket_timeout else tmo) c3
        else
          timeoutLoop buckets1 rest tmo c2

/-- `RateLimiter::timeout`: runs the loop with an initial zero timeout and
returns `Some` only when the accumulated timeout is nonzero. -/
def timeout (buckets : Buckets) (costs : List (BucketName × Nat))
    (c : Clock) : Buckets × Clock × Except RLFail (Option Nat) :=
  match timeoutLoop buckets costs 0 c with
  | (bs, c1, Except.error e) => (bs, c1, Except.error e)
  | (bs, c1, Except.ok tmo) =>
      (bs, c1, Except.ok (if tmo = 0 then none else some tmo))

/-- `RateLimiter::set_costs`: for each `(name, cost)` pair, resolve the
bucket (error on a missing name), roll the window if expired, and add the
cost to `amount` unconditionally. -/
def set_costsLoop (buckets : Buckets) (costs : List (BucketName × Nat))
    (c : Clock) : Buckets × Clock × Except RLFail Unit :=
  match costs with
  | [] => (buckets, c, Except.ok ())
  | (name, cost) :: rest =>
    match getBucket buckets name with
    | none => (buckets, c, Except.error (RLFail.undefinedBucket name))
    | some bucket =>
      let br := bucket.reset_outdated c
      let bucket1 := { br.1 with amount := br.1.amount + cost }
      set_costsLoop (updateBucket buckets name bucket1) rest br.2

/-- The body of the consumer loop in `RateLimiter::recv` for one
`TaskMessage`: compute the timeout, sleep it out when `Some`, then commit
the costs.  An error from the first pass short-circuits the commit. -/
def processMessage (buckets : Buckets) (costs : List (BucketName × Nat))
    (c : Clock) : Buckets × Clock × Except RLFail Unit :=
  match timeout buckets costs c with
  | (bs, c1, Except.error e) => (bs, c1, Except.error e)
  | (bs, c1, Except.ok none) => set_costsLoop bs costs c1
  | (bs, c1, Except.ok (some t)) => set_costsLoop bs costs (c1.sleep t)

/-- The consumer loop of `RateLimiter::recv`: one message at a time, in
queue order. -/
def processAll (buckets : Buckets) (msgs : List (List (BucketName × Nat)))
    (c : Clock) : Buckets × Clock × List (Except RLFail Unit) :=
  match msgs with
  | [] => (buckets, c, [])
  | m :: rest =>
    let r := processMessage buckets m c
    let rs := processAll r.1 rest r.2.1
    (rs.1, rs.2.1, r.2.2 :: rs.2.2)

end RateLimiter

/-- The window roll performed by `reset_outdated` when every clock reading
within the examination returns the instant `t`. -/
def rollAt (t : Nat) (b : RateLimiterBucket) : RateLimiterBucket :=
  if b.interval < t - b.time_instant then
    { b with time_instant := t, amount := 0 }
  else
    b

/-- The individual wait contribution of one bucket, examined at the single
instant `t`, for a request declaring `cost` against it: after the window
roll, `interval - elapsed` when `amount + cost` would exceed `limit`,
zero otherwise. -/
def contribution (b : RateLimiterBucket) (cost t : Nat) : Nat :=
  let b1 := rollAt t b
  if b1.limit < b1.amount + cost then b1.interval - (t - b1.time_instant)
  else 0

def contributionOf (bs : Buckets) (p : BucketName × Nat) (t : Nat) : Nat :=
  match getBucket bs p.1 with
  | none => 0
  | some b => contribution b p.2 t

structure TaskMsg where
  id : Nat
  costs : List (BucketName × Nat)

/-- The dispatcher seen as a transition system: the unbounded mpsc queue
of `TaskMessage`s (FIFO, as the channel guarantees), the identifiers in
arrival order, and the identifiers in decision order. -/
structure DispatchState where
  buckets : Buckets
  clock : Clock
  pending : List TaskMsg
  arrived : List Nat
  decided : List Nat
  nextId : Nat

def initState (bs : Buckets) (c : Clock) : DispatchState :=
  ⟨bs, c, [], [], [], 0⟩

/-- One step of the dispatcher system: either a caller submits an
admission message (appended to the FIFO queue), or the single consumer
loop of `recv` fully decides the message at the head of the queue. -/
inductive DStep : DispatchState → DispatchState → Prop where
  | submit (s : DispatchState) (costs : List (BucketName × Nat)) :
      DStep s { s with
        pending := s.pending ++ [⟨s.nextId, costs⟩],
        arrived := s.arrived ++ [s.nextId],
        nextId := s.nextId + 1 }
  | consume (s : DispatchState) (m : TaskMsg) (rest : List TaskMsg)
      (h : s.pending = m :: rest) :
      DStep s { s with
        pending := rest,
        buckets := (RateLimiter.processMessage s.buckets m.costs s.clock).1,
        clock := (RateLimiter.processMessage s.buckets m.costs s.clock).2.1,
        decided := s.decided ++ [m.id] }

inductive Reachable (bs : Buckets) (c : Clock) : DispatchState → Prop where
  | init : Reachable bs c (initState bs c)
  | step {s s1 : DispatchState} :
      Reachable bs c s → DStep s s1 → Reachable bs c s1

section ClockLemmas

theorem Clock.time_le_now (c : Clock) : c.time ≤ c.now.1 :=
  Nat.le_add_right _ _

theorem Clock.now_snd_time (c : Clock) : c.now.2.time = c.now.1 := rfl

theorem Clock.now_incs (c : Clock) : c.now.2.incs = c.incs := rfl

theorem Clock.sleep_time (c : Clock) (d : Nat) :
    (c.sleep d).time = c.time + d := rfl

theorem Clock.sleep_incs (c : Clock) (d : Nat) :
    (c.sleep d).incs = c.incs := rfl

theorem Clock.now_strict {c : Clock} (h : ∀ i, 1 ≤ c.incs i) :
    c.time + 1 ≤ c.now.1 :=
  Nat.add_le_add_left (h c.idx) c.time

theorem Clock.time_le_now2 (c : Clock) : c.time ≤ c.now.2.time :=
  Nat.le_add_right _ _

theorem now_zclock (t i : Nat) : (zclock t i).now = (t, zclock t (i + 1)) := by
  simp [Clock.now, zclock]

theorem sleep_zclock (t i d : Nat) :
    (zclock t i).sleep d = zclock (t + d) i := rfl

end ClockLemmas

section MapLemmas

theorem getBucket_mem {bs : Buckets} {k : BucketName}
    {b : RateLimiterBucket} (h : getBucket bs k = some b) : (k, b) ∈ bs := by
  induction bs with
  | nil => simp [getBucket] at h
  | cons p rest ih =>
    obtain ⟨k1, b1⟩ := p
    by_cases hk : k1 = k
    · subst hk
      simp [getBucket] at h
      subst h
      exact List.mem_cons_self _ _
    · simp [getBucket, hk] at h
      exact List.mem_cons_of_mem _ (ih h)

theorem getBucket_updateBucket_self {bs : Buckets} {k : BucketName}
    {b : RateLimiterBucket} (b1 : RateLimiterBucket)
    (h : getBucket bs k = some b) :
    getBucket (updateBucket bs k b1) k = some b1 := by
  induction bs with
  | nil => simp [getBucket] at h
  | cons p rest ih =>
    obtain ⟨k2, b2⟩ := p
    by_cases hk : k2 = k
    · subst hk
      simp [getBucket, updateBucket]
    · simp [getBucket, updateBucket, hk] at h ⊢
      exact ih h

theorem getBucket_updateBucket_ne {bs : Buckets} {k k1 : BucketName}
    (b1 : RateLimiterBucket) (h : k1 ≠ k) :
    getBucket (updateBucket bs k1 b1) k = getBucket bs k := by
  induction bs with
  | nil => simp [updateBucket]
  | cons p rest ih =>
    obtain ⟨k2, b2⟩ := p
    by_cases hk : k2 = k1
    · subst hk
      simp [getBucket, updateBucket, h]
    · simp [getBucket, updateBucket, hk]
      split <;> simp_all

theorem getBucket_updateBucket_isSome (bs : Buckets) (k k1 : BucketName)
    (b1 : RateLimiterBucket) :
    (getBucket (updateBucket bs k1 b1) k).isSome
      = (getBucket bs k).isSome := by
  induction bs with
  | nil => simp [updateBucket]
  | cons p rest ih =>
    obtain ⟨k2, b2⟩ := p
    simp only [updateBucket]
    split
    · next hk =>
      subst hk
      simp only [getBucket]
      split <;> simp
    · simp only [getBucket]
      split <;> simp [ih]

theorem mem_updateBucket {bs : Buckets} {k : BucketName}
    {b1 : RateLimiterBucket} {p : BucketName × RateLimiterBucket}
    (h : p ∈ updateBucket bs k b1) : p ∈ bs ∨ p = (k, b1) := by
  induction bs with
  | nil => simp [updateBucket] at h
  | cons q rest ih =>
    obtain ⟨k2, b2⟩ := q
    by_cases hk : k2 = k
    · subst hk
      simp [updateBucket] at h
      rcases h with h | h
      · exact Or.inr (by simp [h])
      · exact Or.inl (List.mem_cons_of_mem _ h)
    · simp [updateBucket, hk] at h
      rcases h with h | h
      · exact Or.inl (by simp [h])
      · rcases ih h with h1 | h1
        · exact Or.inl (List.mem_cons_of_mem _ h1)
        · exact Or.inr h1

end MapLemmas

section ResetLemmas

theorem reset_outdated_cases (b : RateLimiterBucket) (c : Clock) :
    (b.reset_outdated c = (b, c.now.2)) ∨
    (b.reset_outdated c
      = ({ b with time_instant := c.now.2.now.1, amount := 0 },
         c.now.2.now.2)) := by
  simp only [RateLimiterBucket.reset_outdated]
  split
  · exact Or.inr rfl
  · exact Or.inl rfl

theorem reset_outdated_delay (b : RateLimiterBucket) (c : Clock) :
    (b.reset_outdated c).1.delay = b.delay := by
  rcases reset_outdated_cases b c with h | h <;> simp [h]

theorem reset_outdated_limit (b : RateLimiterBucket) (c : Clock) :
    (b.reset_outdated c).1.limit = b.limit := by
  rcases reset_outdated_cases b c with h | h <;> simp [h]

theorem reset_outdated_interval (b : RateLimiterBucket) (c : Clock) :
    (b.reset_outdated c).1.interval = b.interval := by
  rcases reset_outdated_cases b c with h | h <;> simp [h]

theorem reset_outdated_amount_le (b : RateLimiterBucket) (c : Clock) :
    (b.reset_outdated c).1.amount ≤ b.amount := by
  rcases reset_outdated_cases b c with h | h <;> simp [h]

theorem reset_outdated_incs (b : RateLimiterBucket) (c : Clock) :
    (b.reset_outdated c).2.incs = c.incs := by
  rcases reset_outdated_cases b c with h | h <;> simp [h, Clock.now]

theorem reset_outdated_time_mono (b : RateLimiterBucket) (c : Clock) :
    c.time ≤ (b.reset_outdated c).2.time := by
  rcases reset_outdated_cases b c with h | h
  · simp [h, Clock.now]
  · simp [h, Clock.now]
    omega

theorem reset_outdated_ti_le (b : RateLimiterBucket) (c : Clock)
    (h : b.time_instant ≤ c.time) :
    (b.reset_outdated c).1.time_instant ≤ (b.reset_outdated c).2.time := by
  rcases reset_outdated_cases b c with h1 | h1
  · simp [h1, Clock.now]
    omega
  · simp [h1, Clock.now]

theorem reset_outdated_rolls (b : RateLimiterBucket) (c : Clock)
    (h : b.interval < c.now.1 - b.time_instant) :
    (b.reset_outdated c).1.amount = 0 := by
  simp only [RateLimiterBucket.reset_outdated]
  rw [if_pos h]

end ResetLemmas

namespace RateLimiter

theorem timeoutLoop_incs (bs : Buckets) (costs : List (BucketName × Nat))
    (tmo : Nat) (c : Clock) :
    (timeoutLoop bs costs tmo c).2.1.incs = c.incs := by
  induction costs generalizing bs tmo c with
  | nil => rfl
  | cons p rest ih =>
    obtain ⟨name, cost⟩ := p
    cases hg : getBucket bs name with
    | none => simp [timeoutLoop, hg]
    | some bucket =>
      simp only [timeoutLoop, hg]
      split
      · simp [ih, Clock.now_incs]
      · split
        · split
          · simp [Clock.now_incs, reset_outdated_incs]
          · simp [ih, Clock.now_incs, reset_outdated_incs]
        · simp [ih, Clock.now_incs, reset_outdated_incs]

theorem timeoutLoop_time_mono (bs : Buckets)
    (costs : List (BucketName × Nat)) (tmo : Nat) (c : Clock) :
    c.time ≤ (timeoutLoop bs costs tmo c).2.1.time := by
  induction costs generalizing bs tmo c with
  | nil => exact Nat.le_refl _
  | cons p rest ih =>
    obtain ⟨name, cost⟩ := p
    cases hg : getBucket bs name with
    | none => simp [timeoutLoop, hg]
    | some bucket =>
      simp only [timeoutLoop, hg]
      split
      · exact Nat.le_trans (Clock.time_le_now2 c) (ih _ _ _)
      · split
        · split
          · exact Nat.le_trans (Clock.time_le_now2 c)
              (Nat.le_trans (reset_outdated_time_mono bucket c.now.2)
                (Clock.time_le_now2 _))
          · exact Nat.le_trans (Clock.time_le_now2 c)
              (Nat.le_trans (reset_outdated_time_mono bucket c.now.2)
                (Nat.le_trans (Clock.time_le_now2 _) (ih _ _ _)))
        · exact Nat.le_trans (Clock.time_le_now2 c)
            (Nat.le_trans (reset_outdated_time_mono bucket c.now.2)
              (ih _ _ _))

end RateLimiter

section InvariantHelpers

theorem getBucket_update_shape {bs : Buckets} {k name : BucketName}
    {bucket b1m : RateLimiterBucket} (hg : getBucket bs name = some bucket)
    (c : Clock)
    (h : getBucket (updateBucket bs name (bucket.reset_outdated c).1) k
      = some b1m) :
    ∃ b0, getBucket bs k = some b0 ∧ b1m.delay = b0.delay
      ∧ b1m.limit = b0.limit ∧ b1m.interval = b0.interval
      ∧ b1m.amount ≤ b0.amount := by
  by_cases hk : name = k
  · subst hk
    rw [getBucket_updateBucket_self _ hg] at h
    obtain rfl : (bucket.reset_outdated c).1 = b1m := by
      exact Option.some.inj h
    exact ⟨bucket, hg, reset_outdated_delay _ _, reset_outdated_limit _ _,
      reset_outdated_interval _ _, reset_outdated_amount_le _ _⟩
  · rw [getBucket_updateBucket_ne _ hk] at h
    exact ⟨b1m, h, rfl, rfl, rfl, Nat.le_refl _⟩

theorem delays_le_update {bs : Buckets} {name : BucketName} {T T1 : Nat}
    (h : ∀ p ∈ bs, p.2.delay ≤ T) (b1 : RateLimiterBucket)
    (hb1 : b1.delay ≤ T1) (hT : T ≤ T1) :
    ∀ p ∈ updateBucket bs name b1, p.2.delay ≤ T1 := by
  intro p hp
  rcases mem_updateBucket hp with h1 | h1
  · exact Nat.le_trans (h p h1) hT
  · rw [h1]
    exact hb1

theorem tis_le_update {bs : Buckets} {name : BucketName} {T T1 : Nat}
    (h : ∀ p ∈ bs, p.2.time_instant ≤ T) (b1 : RateLimiterBucket)
    (hb1 : b1.time_instant ≤ T1) (hT : T ≤ T1) :
    ∀ p ∈ updateBucket bs name b1, p.2.time_instant ≤ T1 := by
  intro p hp
  rcases mem_updateBucket hp with h1 | h1
  · exact Nat.le_trans (h p h1) hT
  · rw [h1]
    exact hb1

end InvariantHelpers

namespace RateLimiter

theorem timeoutLoop_frame (bs : Buckets) (costs : List (BucketName × Nat))
    (tmo : Nat) (c : Clock) (k : BucketName)
    (hk : k ∉ costs.map Prod.fst) :
    getBucket (timeoutLoop bs costs tmo c).1 k = getBucket bs k := by
  induction costs generalizing bs tmo c with
  | nil => rfl
  | cons p rest ih =>
    obtain ⟨name, cost⟩ := p
    have hne : name ≠ k := by
      intro h
      exact hk (by simp [h])
    have hk2 : k ∉ rest.map Prod.fst := by
      intro h
      exact hk (by simp [h])
    cases hg : getBucket bs name with
    | none => simp [timeoutLoop, hg]
    | some bucket =>
      simp only [timeoutLoop, hg]
      split
      · exact ih _ _ _ hk2
      · split
        · split
          · exact getBucket_updateBucket_ne _ hne
          · rw [ih _ _ _ hk2, getBucket_updateBucket_ne _ hne]
        · rw [ih _ _ _ hk2, getBucket_updateBucket_ne _ hne]

theorem timeoutLoop_shape (bs : Buckets) (costs : List (BucketName × Nat))
    (tmo : Nat) (c : Clock) (k : BucketName) (b1 : RateLimiterBucket)
    (h : getBucket (timeoutLoop bs costs tmo c).1 k = some b1) :
    ∃ b0, getBucket bs k = some b0 ∧ b1.delay = b0.delay
      ∧ b1.limit = b0.limit ∧ b1.interval = b0.interval
      ∧ b1.amount ≤ b0.amount := by
  induction costs generalizing bs tmo c b1 with
  | nil => exact ⟨b1, h, rfl, rfl, rfl, Nat.le_refl _⟩
  | cons p rest ih =>
    obtain ⟨name, cost⟩ := p
    cases hg : getBucket bs name with
    | none =>
      simp only [timeoutLoop, hg] at h
      exact ⟨b1, h, rfl, rfl, rfl, Nat.le_refl _⟩
    | some bucket =>
      simp only [timeoutLoop, hg] at h
      split at h
      · exact ih _ _ _ _ h
      · split at h
        · split at h
          · exact getBucket_update_shape hg _ h
          · obtain ⟨bm, hbm, d1, l1, i1, a1⟩ := ih _ _ _ _ h
            obtain ⟨b0, hb0, d0, l0, i0, a0⟩ :=
              getBucket_update_shape hg _ hbm
            exact ⟨b0, hb0, by rw [d1, d0], by rw [l1, l0],
              by rw [i1, i0], Nat.le_trans a1 a0⟩
        · obtain ⟨bm, hbm, d1, l1, i1, a1⟩ := ih _ _ _ _ h
          obtain ⟨b0, hb0, d0, l0, i0, a0⟩ :=
            getBucket_update_shape hg _ hbm
          exact ⟨b0, hb0, by rw [d1, d0], by rw [l1, l0],
            by rw [i1, i0], Nat.le_trans a1 a0⟩

theorem timeoutLoop_isSome (bs : Buckets) (costs : List (BucketName × Nat))
    (tmo : Nat) (c : Clock) (k : BucketName) :
    (getBucket (timeoutLoop bs costs tmo c).1 k).isSome
      = (getBucket bs k).isSome := by
  induction costs generalizing bs tmo c with
  | nil => rfl
  | cons p rest ih =>
    obtain ⟨name, cost⟩ := p
    cases hg : getBucket bs name with
    | none => simp [timeoutLoop, hg]
    | some bucket =>
      simp only [timeoutLoop, hg]
      split
      · exact ih _ _ _
      · split
        · split
          · exact getBucket_updateBucket_isSome _ _ _ _
          · rw [ih _ _ _, getBucket_updateBucket_isSome]
        · rw [ih _ _ _, getBucket_updateBucket_isSome]

theorem timeoutLoop_ok_present (bs : Buckets)
    (costs : List (BucketName × Nat)) (tmo n : Nat) (c : Clock)
    (h : (timeoutLoop bs costs tmo c).2.2 = Except.ok n) :
    ∀ p ∈ costs, (getBucket bs p.1).isSome = true := by
  induction costs generalizing bs tmo c with
  | nil => intro p hp; simp at hp
  | cons q rest ih =>
    obtain ⟨name, cost⟩ := q
    cases hg : getBucket bs name with
    | none => simp [timeoutLoop, hg] at h
    | some bucket =>
      simp only [timeoutLoop, hg] at h
      intro p hp
      rcases List.mem_cons.mp hp with rfl | hp2
      · simp [hg]
      · split at h
        · exact ih _ _ _ h p hp2
        · split at h
          · split at h
            · simp at h
            · have := ih _ _ _ h p hp2
              rwa [getBucket_updateBucket_isSome] at this
          · have := ih _ _ _ h p hp2
            rwa [getBucket_updateBucket_isSome] at this

theorem timeoutLoop_delay_inv (bs : Buckets)
    (costs : List (BucketName × Nat)) (tmo : Nat) (c : Clock)
    (h : ∀ p ∈ bs, p.2.delay ≤ c.time) :
    ∀ p ∈ (timeoutLoop bs costs tmo c).1, p.2.delay
      ≤ (timeoutLoop bs costs tmo c).2.1.time := by
  induction costs generalizing bs tmo c with
  | nil => exact h
  | cons q rest ih =>
    obtain ⟨name, cost⟩ := q
    cases hg : getBucket bs name with
    | none => simpa [timeoutLoop, hg] using h
    | some bucket =>
      have hbd : bucket.delay ≤ c.time := h _ (getBucket_mem hg)
      simp only [timeoutLoop, hg]
      split
      · refine ih _ _ _ ?_
        intro p hp
        exact Nat.le_trans (h p hp) (Clock.time_le_now2 c)
      · have hstep : ∀ T1, (bucket.reset_outdated c.now.2).2.time ≤ T1 →
            ∀ p ∈ updateBucket bs name (bucket.reset_outdated c.now.2).1,
              p.2.delay ≤ T1 := by
          intro T1 hT1
          refine delays_le_update h _ ?_ ?_
          · rw [reset_outdated_delay]
            exact Nat.le_trans hbd (Nat.le_trans (Clock.time_le_now2 c)
              (Nat.le_trans (reset_outdated_time_mono _ _) hT1))
          · exact Nat.le_trans (Clock.time_le_now2 c)
              (Nat.le_trans (reset_outdated_time_mono _ _) hT1)
        split
        · split
          · exact hstep _ (Clock.time_le_now2 _)
          · exact ih _ _ _ (hstep _ (Clock.time_le_now2 _))
        · exact ih _ _ _ (hstep _ (Nat.le_refl _))

theorem timeoutLoop_ti_inv (bs : Buckets)
    (costs : List (BucketName × Nat)) (tmo : Nat) (c : Clock)
    (h : ∀ p ∈ bs, p.2.time_instant ≤ c.time) :
    ∀ p ∈ (timeoutLoop bs costs tmo c).1, p.2.time_instant
      ≤ (timeoutLoop bs costs tmo c).2.1.time := by
  induction costs generalizing bs tmo c with
  | nil => exact h
  | cons q rest ih =>
    obtain ⟨name, cost⟩ := q
    cases hg : getBucket bs name with
    | none => simpa [timeoutLoop, hg] using h
    | some bucket =>
      have hbt : bucket.time_instant ≤ c.time := h _ (getBucket_mem hg)
      simp only [timeoutLoop, hg]
      split
      · refine ih _ _ _ ?_
        intro p hp
        exact Nat.le_trans (h p hp) (Clock.time_le_now2 c)
      · have hti : (bucket.reset_outdated c.now.2).1.time_instant
            ≤ (bucket.reset_outdated c.now.2).2.time :=
          reset_outdated_ti_le _ _
            (Nat.le_trans hbt (Clock.time_le_now2 c))
        have hstep : ∀ T1, (bucket.reset_outdated c.now.2).2.time ≤ T1 →
            ∀ p ∈ updateBucket bs name (bucket.reset_outdated c.now.2).1,
              p.2.time_instant ≤ T1 := by
          intro T1 hT1
          refine tis_le_update h _ (Nat.le_trans hti hT1) ?_
          exact Nat.le_trans (Clock.time_le_now2 c)
            (Nat.le_trans (reset_outdated_time_mono _ _) hT1)
        split
        · split
          · exact hstep _ (Clock.time_le_now2 _)
          · exact ih _ _ _ (hstep _ (Clock.time_le_now2 _))
        · exact ih _ _ _ (hstep _ (Nat.le_refl _))

theorem delay_sub_zero {bs : Buckets} {name : BucketName}
    {bucket : RateLimiterBucket} {c : Clock}
    (hg : getBucket bs name = some bucket)
    (hdelay : ∀ p ∈ bs, p.2.delay ≤ c.time) :
    bucket.delay - c.now.1 = 0 := by
  have h1 : bucket.delay ≤ c.time := hdelay _ (getBucket_mem hg)
  have h2 : c.time ≤ c.now.1 := Clock.time_le_now c
  omega

theorem forall_delay_weaken {bs : Buckets} {T T1 : Nat}
    (h : ∀ p ∈ bs, p.2.delay ≤ T) (hT : T ≤ T1) :
    ∀ p ∈ bs, p.2.delay ≤ T1 :=
  fun p hp => Nat.le_trans (h p hp) hT

theorem forall_ti_weaken {bs : Buckets} {T T1 : Nat}
    (h : ∀ p ∈ bs, p.2.time_instant ≤ T) (hT : T ≤ T1) :
    ∀ p ∈ bs, p.2.time_instant ≤ T1 :=
  fun p hp => Nat.le_trans (h p hp) hT

theorem delays_le_after_reset {bs : Buckets} {name : BucketName}
    {bucket : RateLimiterBucket} {c : Clock}
    (hg : getBucket bs name = some bucket)
    (hdelay : ∀ p ∈ bs, p.2.delay ≤ c.time) :
    ∀ p ∈ updateBucket bs name (bucket.reset_outdated c.now.2).1,
      p.2.delay ≤ (bucket.reset_outdated c.now.2).2.time := by
  refine delays_le_update hdelay _ ?_ ?_
  · rw [reset_outdated_delay]
    exact Nat.le_trans (hdelay _ (getBucket_mem hg))
      (Nat.le_trans (Clock.time_le_now2 c) (reset_outdated_time_mono _ _))
  · exact Nat.le_trans (Clock.time_le_now2 c) (reset_outdated_time_mono _ _)

theorem tis_le_after_reset {bs : Buckets} {name : BucketName}
    {bucket : RateLimiterBucket} {c : Clock}
    (hg : getBucket bs name = some bucket)
    (hti : ∀ p ∈ bs, p.2.time_instant ≤ c.time) :
    ∀ p ∈ updateBucket bs name (bucket.reset_outdated c.now.2).1,
      p.2.time_instant ≤ (bucket.reset_outdated c.now.2).2.time := by
  refine tis_le_update hti _ ?_ ?_
  · exact reset_outdated_ti_le _ _
      (Nat.le_trans (hti _ (getBucket_mem hg)) (Clock.time_le_now2 c))
  · exact Nat.le_trans (Clock.time_le_now2 c) (reset_outdated_time_mono _ _)

theorem timeoutLoop_tmo_mono (bs : Buckets)
    (costs : List (BucketName × Nat)) (tmo : Nat) (c : Clock)
    (hdelay : ∀ p ∈ bs, p.2.delay ≤ c.time) :
    ∀ n, (timeoutLoop bs costs tmo c).2.2 = Except.ok n → tmo ≤ n := by
  induction costs generalizing bs tmo c with
  | nil =>
    intro n h
    obtain rfl : tmo = n := by simpa [timeoutLoop] using h
    exact Nat.le_refl _
  | cons q rest ih =>
    obtain ⟨name, cost⟩ := q
    intro n h
    cases hg : getBucket bs name with
    | none => simp [timeoutLoop, hg] at h
    | some bucket =>
      have hbd : bucket.delay ≤ c.time := hdelay _ (getBucket_mem hg)
      simp only [timeoutLoop, hg] at h
      split at h
      · next hcond =>
        exfalso
        apply hcond
        have : bucket.delay ≤ c.now.1 :=
          Nat.le_trans hbd (Clock.time_le_now (c := c))
        omega
      · have hstep : ∀ T1, (bucket.reset_outdated c.now.2).2.time ≤ T1 →
            ∀ p ∈ updateBucket bs name (bucket.reset_outdated c.now.2).1,
              p.2.delay ≤ T1 := by
          intro T1 hT1
          refine delays_le_update hdelay _ ?_ ?_
          · rw [reset_outdated_delay]
            exact Nat.le_trans hbd (Nat.le_trans (Clock.time_le_now2 c)
              (Nat.le_trans (reset_outdated_time_mono _ _) hT1))
          · exact Nat.le_trans (Clock.time_le_now2 c)
              (Nat.le_trans (reset_outdated_time_mono _ _) hT1)
        split at h
        · split at h
          · simp at h
          · have h2 := ih _ _ _ (hstep _ (Clock.time_le_now2 _)) n h
            refine Nat.le_trans ?_ h2
            split
            · next hlt => exact Nat.le_of_lt hlt
            · exact Nat.le_refl _
        · exact ih _ _ _ (hstep _ (Nat.le_refl _)) n h

theorem timeoutLoop_key (costs : List (BucketName × Nat)) (k : BucketName)
    (ck : Nat) :
    ∀ (bs : Buckets) (tmo : Nat) (c : Clock) (b : RateLimiterBucket),
      (costs.map Prod.fst).Nodup → (k, ck) ∈ costs →
      (∀ p ∈ bs, p.2.delay ≤ c.time) →
      (∀ p ∈ bs, p.2.time_instant ≤ c.time) →
      getBucket bs k = some b →
      ∀ n, (timeoutLoop bs costs tmo c).2.2 = Except.ok n →
      ∃ b1, getBucket (timeoutLoop bs costs tmo c).1 k = some b1 ∧
        b1.limit = b.limit ∧ b1.interval = b.interval ∧
        (b1.amount + ck ≤ b.limit ∨
          b1.time_instant + b1.interval
            ≤ (timeoutLoop bs costs tmo c).2.1.time + n) := by
  induction costs with
  | nil =>
    intro bs tmo c b _ hmem
    simp at hmem
  | cons q rest ih =>
    obtain ⟨name, cost⟩ := q
    intro bs tmo c b hnodup hmem hdelay hti hk n h
    have hnd2 : name ∉ rest.map Prod.fst ∧ (rest.map Prod.fst).Nodup := by
      rw [List.map_cons, List.nodup_cons] at hnodup
      exact hnodup
    rcases List.mem_cons.mp hmem with heq | hmem2
    · obtain ⟨rfl, rfl⟩ : k = name ∧ ck = cost := by simpa using heq
      have hknotin : k ∉ rest.map Prod.fst := hnd2.1
      simp only [timeoutLoop, hk] at h ⊢
      rw [if_neg (fun hne => hne (delay_sub_zero hk hdelay))] at h ⊢
      have hb1ti : (b.reset_outdated c.now.2).1.time_instant
          ≤ (b.reset_outdated c.now.2).2.time :=
        reset_outdated_ti_le _ _
          (Nat.le_trans (hti _ (getBucket_mem hk)) (Clock.time_le_now2 c))
      by_cases hcap : (b.reset_outdated c.now.2).1.limit
          < (b.reset_outdated c.now.2).1.amount + ck
      · rw [if_pos hcap] at h ⊢
        by_cases hund : (b.reset_outdated c.now.2).1.interval
            < (b.reset_outdated c.now.2).2.now.1
              - (b.reset_outdated c.now.2).1.time_instant
        · rw [if_pos hund] at h
          simp at h
        · rw [if_neg hund] at h ⊢
          refine ⟨(b.reset_outdated c.now.2).1, ?_, ?_, ?_, Or.inr ?_⟩
          · rw [timeoutLoop_frame _ _ _ _ _ hknotin]
            exact getBucket_updateBucket_self _ hk
          · exact reset_outdated_limit _ _
          · exact reset_outdated_interval _ _
          · have hdelay3 : ∀ p ∈ updateBucket bs k
                (b.reset_outdated c.now.2).1,
                p.2.delay ≤ (b.reset_outdated c.now.2).2.now.2.time :=
              forall_delay_weaken (delays_le_after_reset hk hdelay)
                (Clock.time_le_now2 _)
            have htm := timeoutLoop_tmo_mono _ rest _ _ hdelay3 n h
            have hbt : ((b.reset_outdated c.now.2).1.interval
                - ((b.reset_outdated c.now.2).2.now.1
                  - (b.reset_outdated c.now.2).1.time_instant))
                ≤ (if tmo < (b.reset_outdated c.now.2).1.interval
                    - ((b.reset_outdated c.now.2).2.now.1
                      - (b.reset_outdated c.now.2).1.time_instant)
                  then (b.reset_outdated c.now.2).1.interval
                    - ((b.reset_outdated c.now.2).2.now.1
                      - (b.reset_outdated c.now.2).1.time_instant)
                  else tmo) := by
              split
              · exact Nat.le_refl _
              · next hlt => omega
            have htime := timeoutLoop_time_mono (updateBucket bs k
              (b.reset_outdated c.now.2).1) rest
              (if tmo < (b.reset_outdated c.now.2).1.interval
                  - ((b.reset_outdated c.now.2).2.now.1
                    - (b.reset_outdated c.now.2).1.time_instant)
                then (b.reset_outdated c.now.2).1.interval
                  - ((b.reset_outdated c.now.2).2.now.1
                    - (b.reset_outdated c.now.2).1.time_instant)
                else tmo) (b.reset_outdated c.now.2).2.now.2
            have hc3 : (b.reset_outdated c.now.2).2.now.2.time
                = (b.reset_outdated c.now.2).2.now.1 := rfl
            have hn3 : (b.reset_outdated c.now.2).1.time_instant
                ≤ (b.reset_outdated c.now.2).2.now.1 :=
              Nat.le_trans hb1ti (Clock.time_le_now _)
            omega
      · rw [if_neg hcap] at h ⊢
        refine ⟨(b.reset_outdated c.now.2).1, ?_, ?_, ?_, Or.inl ?_⟩
        · rw [timeoutLoop_frame _ _ _ _ _ hknotin]
          exact getBucket_updateBucket_self _ hk
        · exact reset_outdated_limit _ _
        · exact reset_outdated_interval _ _
        · rw [← reset_outdated_limit b c.now.2]
          omega
    · have hkne : name ≠ k := by
        intro hcon
        apply hnd2.1
        rw [hcon]
        exact List.mem_map.mpr ⟨(k, ck), hmem2, rfl⟩
      cases hg : getBucket bs name with
      | none => simp [timeoutLoop, hg] at h
      | some bucket =>
        simp only [timeoutLoop, hg] at h ⊢
        rw [if_neg (fun hne => hne (delay_sub_zero hg hdelay))] at h ⊢
        have hk1 : getBucket (updateBucket bs name
            (bucket.reset_outdated c.now.2).1) k = some b := by
          rw [getBucket_updateBucket_ne _ hkne]
          exact hk
        by_cases hcap : (bucket.reset_outdated c.now.2).1.limit
            < (bucket.reset_outdated c.now.2).1.amount + cost
        · rw [if_pos hcap] at h ⊢
          by_cases hund : (bucket.reset_outdated c.now.2).1.interval
              < (bucket.reset_outdated c.now.2).2.now.1
                - (bucket.reset_outdated c.now.2).1.time_instant
          · rw [if_pos hund] at h
            simp at h
          · rw [if_neg hund] at h ⊢
            exact ih _ _ _ _ hnd2.2 hmem2
              (forall_delay_weaken (delays_le_after_reset hg hdelay)
                (Clock.time_le_now2 _))
              (forall_ti_weaken (tis_le_after_reset hg hti)
                (Clock.time_le_now2 _))
              hk1 n h
        · rw [if_neg hcap] at h ⊢
          exact ih _ _ _ _ hnd2.2 hmem2
            (delays_le_after_reset hg hdelay)
            (tis_le_after_reset hg hti)
            hk1 n h

theorem set_costsLoop_incs (costs : List (BucketName × Nat)) :
    ∀ (bs : Buckets) (c : Clock),
      (set_costsLoop bs costs c).2.1.incs = c.incs := by
  induction costs with
  | nil => intro bs c; rfl
  | cons q rest ih =>
    obtain ⟨name, cost⟩ := q
    intro bs c
    cases hg : getBucket bs name with
    | none => simp [set_costsLoop, hg]
    | some bucket =>
      simp only [set_costsLoop, hg]
      rw [ih, reset_outdated_incs]

theorem set_costsLoop_time_mono (costs : List (BucketName × Nat)) :
    ∀ (bs : Buckets) (c : Clock),
      c.time ≤ (set_costsLoop bs costs c).2.1.time := by
  induction costs with
  | nil => intro bs c; exact Nat.le_refl _
  | cons q rest ih =>
    obtain ⟨name, cost⟩ := q
    intro bs c
    cases hg : getBucket bs name with
    | none => simp [set_costsLoop, hg]
    | some bucket =>
      simp only [set_costsLoop, hg]
      exact Nat.le_trans (reset_outdated_time_mono bucket c) (ih _ _)

theorem set_costsLoop_frame (costs : List (BucketName × Nat))
    (k : BucketName) (hk : k ∉ costs.map Prod.fst) :
    ∀ (bs : Buckets) (c : Clock),
      getBucket (set_costsLoop bs costs c).1 k = getBucket bs k := by
  induction costs with
  | nil => intro bs c; rfl
  | cons q rest ih =>
    obtain ⟨name, cost⟩ := q
    have hne : name ≠ k := by
      intro h
      exact hk (by simp [h])
    have hk2 : k ∉ rest.map Prod.fst := by
      intro h
      exact hk (by simp [h])
    intro bs c
    cases hg : getBucket bs name with
    | none => simp [set_costsLoop, hg]
    | some bucket =>
      simp only [set_costsLoop, hg]
      rw [ih hk2, getBucket_updateBucket_ne _ hne]

theorem set_costsLoop_ok_of_present (costs : List (BucketName × Nat)) :
    ∀ (bs : Buckets) (c : Clock),
      (∀ p ∈ costs, (getBucket bs p.1).isSome = true) →
      (set_costsLoop bs costs c).2.2 = Except.ok () := by
  induction costs with
  | nil => intro bs c _; rfl
  | cons q rest ih =>
    obtain ⟨name, cost⟩ := q
    intro bs c hpres
    cases hg : getBucket bs name with
    | none =>
      have := hpres (name, cost) (List.mem_cons_self _ _)
      rw [hg] at this
      simp at this
    | some bucket =>
      simp only [set_costsLoop, hg]
      refine ih _ _ ?_
      intro p hp
      rw [getBucket_updateBucket_isSome]
      exact hpres p (List.mem_cons_of_mem _ hp)

theorem getBucket_update_fields {bs : Buckets} {k name : BucketName}
    {bucket bnew b1m : RateLimiterBucket}
    (hg : getBucket bs name = some bucket)
    (hd : bnew.delay = bucket.delay) (hl : bnew.limit = bucket.limit)
    (hi : bnew.interval = bucket.interval)
    (h : getBucket (updateBucket bs name bnew) k = some b1m) :
    ∃ b0, getBucket bs k = some b0 ∧ b1m.delay = b0.delay
      ∧ b1m.limit = b0.limit ∧ b1m.interval = b0.interval := by
  by_cases hk : name = k
  · subst hk
    rw [getBucket_updateBucket_self _ hg] at h
    obtain rfl : bnew = b1m := Option.some.inj h
    exact ⟨bucket, hg, hd, hl, hi⟩
  · rw [getBucket_updateBucket_ne _ hk] at h
    exact ⟨b1m, h, rfl, rfl, rfl⟩

theorem set_costsLoop_shape (costs : List (BucketName × Nat)) :
    ∀ (bs : Buckets) (c : Clock) (k : BucketName) (b2 : RateLimiterBucket),
      getBucket (set_costsLoop bs costs c).1 k = some b2 →
      ∃ b0, getBucket bs k = some b0 ∧ b2.delay = b0.delay
        ∧ b2.limit = b0.limit ∧ b2.interval = b0.interval := by
  induction costs with
  | nil =>
    intro bs c k b2 h
    exact ⟨b2, h, rfl, rfl, rfl⟩
  | cons q rest ih =>
    obtain ⟨name, cost⟩ := q
    intro bs c k b2 h
    cases hg : getBucket bs name with
    | none =>
      simp only [set_costsLoop, hg] at h
      exact ⟨b2, h, rfl, rfl, rfl⟩
    | some bucket =>
      simp only [set_costsLoop, hg] at h
      obtain ⟨bm, hbm, d1, l1, i1⟩ := ih _ _ _ _ h
      obtain ⟨b0, hb0, d0, l0, i0⟩ := getBucket_update_fields hg
        (by simp [reset_outdated_delay]) (by simp [reset_outdated_limit])
        (by simp [reset_outdated_interval]) hbm
      exact ⟨b0, hb0, by rw [d1, d0], by rw [l1, l0], by rw [i1, i0]⟩

theorem set_costsLoop_key (costs : List (BucketName × Nat))
    (k : BucketName) (ck : Nat) :
    ∀ (bs : Buckets) (c : Clock) (b : RateLimiterBucket),
      (costs.map Prod.fst).Nodup → (k, ck) ∈ costs →
      (∀ i, 1 ≤ c.incs i) →
      (∀ p ∈ costs, (getBucket bs p.1).isSome = true) →
      getBucket bs k = some b →
      (b.amount + ck ≤ b.limit ∨ b.time_instant + b.interval ≤ c.time) →
      ∀ b2, getBucket (set_costsLoop bs costs c).1 k = some b2 →
        b2.amount ≤ b.limit + ck := by
  induction costs with
  | nil =>
    intro bs c b _ hmem
    simp at hmem
  | cons q rest ih =>
    obtain ⟨name, cost⟩ := q
    intro bs c b hnodup hmem hstrict hpres hk hdich b2 h
    have hnd2 : name ∉ rest.map Prod.fst ∧ (rest.map Prod.fst).Nodup := by
      rw [List.map_cons, List.nodup_cons] at hnodup
      exact hnodup
    rcases List.mem_cons.mp hmem with heq | hmem2
    · obtain ⟨rfl, rfl⟩ : k = name ∧ ck = cost := by simpa using heq
      simp only [set_costsLoop, hk] at h
      rw [set_costsLoop_frame _ _ hnd2.1,
        getBucket_updateBucket_self _ hk] at h
      obtain rfl : { (b.reset_outdated c).1 with
          amount := (b.reset_outdated c).1.amount + ck } = b2 :=
        Option.some.inj h
      rcases hdich with hcase | hcase
      · have := reset_outdated_amount_le b c
        simp only []
        omega
      · have hroll : (b.reset_outdated c).1.amount = 0 := by
          refine reset_outdated_rolls b c ?_
          have h1 : c.time + 1 ≤ c.now.1 := Clock.now_strict hstrict
          omega
        simp only [hroll]
        omega
    · have hkne : name ≠ k := by
        intro hcon
        apply hnd2.1
        rw [hcon]
        exact List.mem_map.mpr ⟨(k, ck), hmem2, rfl⟩
      cases hg : getBucket bs name with
      | none =>
        have := hpres (name, cost) (List.mem_cons_self _ _)
        rw [hg] at this
        simp at this
      | some bucket =>
        simp only [set_costsLoop, hg] at h
        refine ih _ _ _ hnd2.2 hmem2 ?_ ?_ ?_ ?_ b2 h
        · intro i
          rw [reset_outdated_incs]
          exact hstrict i
        · intro p hp
          rw [getBucket_updateBucket_isSome]
          exact hpres p (List.mem_cons_of_mem _ hp)
        · rw [getBucket_updateBucket_ne _ hkne]
          exact hk
        · rcases hdich with hcase | hcase
          · exact Or.inl hcase
          · exact Or.inr (Nat.le_trans hcase (reset_outdated_time_mono _ _))

theorem set_costsLoop_delay_inv (costs : List (BucketName × Nat)) :
    ∀ (bs : Buckets) (c : Clock), (∀ p ∈ bs, p.2.delay ≤ c.time) →
      ∀ p ∈ (set_costsLoop bs costs c).1, p.2.delay
        ≤ (set_costsLoop bs costs c).2.1.time := by
  induction costs with
  | nil => intro bs c h; exact h
  | cons q rest ih =>
    obtain ⟨name, cost⟩ := q
    intro bs c h
    cases hg : getBucket bs name with
    | none => simpa [set_costsLoop, hg] using h
    | some bucket =>
      simp only [set_costsLoop, hg]
      refine ih _ _ ?_
      refine delays_le_update h _ ?_ (reset_outdated_time_mono _ _)
      show (bucket.reset_outdated c).1.delay ≤ _
      rw [reset_outdated_delay]
      exact Nat.le_trans (h _ (getBucket_mem hg))
        (reset_outdated_time_mono _ _)

theorem set_costsLoop_ti_inv (costs : List (BucketName × Nat)) :
    ∀ (bs : Buckets) (c : Clock), (∀ p ∈ bs, p.2.time_instant ≤ c.time) →
      ∀ p ∈ (set_costsLoop bs costs c).1, p.2.time_instant
        ≤ (set_costsLoop bs costs c).2.1.time := by
  induction costs with
  | nil => intro bs c h; exact h
  | cons q rest ih =>
    obtain ⟨name, cost⟩ := q
    intro bs c h
    cases hg : getBucket bs name with
    | none => simpa [set_costsLoop, hg] using h
    | some bucket =>
      simp only [set_costsLoop, hg]
      refine ih _ _ ?_
      refine tis_le_update h _ ?_ (reset_outdated_time_mono _ _)
      show (bucket.reset_outdated c).1.time_instant ≤ _
      exact reset_outdated_ti_le _ _ (h _ (getBucket_mem hg))

theorem processMessage_error (bs : Buckets) (costs : List (BucketName × Nat))
    (c : Clock) (e : RLFail)
    (h : (timeoutLoop bs costs 0 c).2.2 = Except.error e) :
    processMessage bs costs c
      = ((timeoutLoop bs costs 0 c).1, (timeoutLoop bs costs 0 c).2.1,
          Except.error e) := by
  unfold processMessage timeout
  rcases hR : timeoutLoop bs costs 0 c with ⟨bs1, c1, r⟩
  obtain rfl : r = Except.error e := by rw [hR] at h; exact h
  rfl

theorem processMessage_ok (bs : Buckets) (costs : List (BucketName × Nat))
    (c : Clock) (tmo : Nat)
    (h : (timeoutLoop bs costs 0 c).2.2 = Except.ok tmo) :
    processMessage bs costs c
      = set_costsLoop (timeoutLoop bs costs 0 c).1 costs
          ((timeoutLoop bs costs 0 c).2.1.sleep tmo) := by
  unfold processMessage timeout
  rcases hR : timeoutLoop bs costs 0 c with ⟨bs1, c1, r⟩
  obtain rfl : r = Except.ok tmo := by rw [hR] at h; exact h
  by_cases h0 : tmo = 0
  · subst h0
    have hs : c1.sleep 0 = c1 := by
      show Clock.mk (c1.time + 0) c1.incs c1.idx = c1
      rw [Nat.add_zero]
    simp [hs]
  · simp [h0]

theorem processMessage_incs (bs : Buckets) (costs : List (BucketName × Nat))
    (c : Clock) : (processMessage bs costs c).2.1.incs = c.incs := by
  cases hR : (timeoutLoop bs costs 0 c).2.2 with
  | error e =>
    rw [processMessage_error _ _ _ _ hR]
    exact timeoutLoop_incs _ _ _ _
  | ok tmo =>
    rw [processMessage_ok _ _ _ _ hR, set_costsLoop_incs,
      Clock.sleep_incs, timeoutLoop_incs]

theorem processMessage_time_mono (bs : Buckets)
    (costs : List (BucketName × Nat)) (c : Clock) :
    c.time ≤ (processMessage bs costs c).2.1.time := by
  cases hR : (timeoutLoop bs costs 0 c).2.2 with
  | error e =>
    rw [processMessage_error _ _ _ _ hR]
    exact timeoutLoop_time_mono _ _ _ _
  | ok tmo =>
    rw [processMessage_ok _ _ _ _ hR]
    have h1 := set_costsLoop_time_mono costs (timeoutLoop bs costs 0 c).1
      ((timeoutLoop bs costs 0 c).2.1.sleep tmo)
    rw [Clock.sleep_time] at h1
    exact Nat.le_trans (Nat.le_trans (timeoutLoop_time_mono bs costs 0 c)
      (Nat.le_add_right _ tmo)) h1

theorem processMessage_shape (bs : Buckets)
    (costs : List (BucketName × Nat)) (c : Clock) (k : BucketName)
    (b2 : RateLimiterBucket)
    (h : getBucket (processMessage bs costs c).1 k = some b2) :
    ∃ b0, getBucket bs k = some b0 ∧ b2.delay = b0.delay
      ∧ b2.limit = b0.limit ∧ b2.interval = b0.interval := by
  cases hR : (timeoutLoop bs costs 0 c).2.2 with
  | error e =>
    rw [processMessage_error _ _ _ _ hR] at h
    obtain ⟨b0, hb0, d0, l0, i0, _⟩ := timeoutLoop_shape _ _ _ _ _ _ h
    exact ⟨b0, hb0, d0, l0, i0⟩
  | ok tmo =>
    rw [processMessage_ok _ _ _ _ hR] at h
    obtain ⟨bm, hbm, d1, l1, i1⟩ := set_costsLoop_shape _ _ _ _ _ h
    obtain ⟨b0, hb0, d0, l0, i0, _⟩ := timeoutLoop_shape _ _ _ _ _ _ hbm
    exact ⟨b0, hb0, by rw [d1, d0], by rw [l1, l0], by rw [i1, i0]⟩

theorem processMessage_delay_inv (bs : Buckets)
    (costs : List (BucketName × Nat)) (c : Clock)
    (h : ∀ p ∈ bs, p.2.delay ≤ c.time) :
    ∀ p ∈ (processMessage bs costs c).1, p.2.delay
      ≤ (processMessage bs costs c).2.1.time := by
  cases hR : (timeoutLoop bs costs 0 c).2.2 with
  | error e =>
    rw [processMessage_error _ _ _ _ hR]
    exact timeoutLoop_delay_inv _ _ _ _ h
  | ok tmo =>
    rw [processMessage_ok _ _ _ _ hR]
    refine set_costsLoop_delay_inv _ _ _ ?_
    refine forall_delay_weaken (timeoutLoop_delay_inv _ _ _ _ h) ?_
    exact Nat.le_add_right _ _

theorem processMessage_ti_inv (bs : Buckets)
    (costs : List (BucketName × Nat)) (c : Clock)
    (h : ∀ p ∈ bs, p.2.time_instant ≤ c.time) :
    ∀ p ∈ (processMessage bs costs c).1, p.2.time_instant
      ≤ (processMessage bs costs c).2.1.time := by
  cases hR : (timeoutLoop bs costs 0 c).2.2 with
  | error e =>
    rw [processMessage_error _ _ _ _ hR]
    exact timeoutLoop_ti_inv _ _ _ _ h
  | ok tmo =>
    rw [processMessage_ok _ _ _ _ hR]
    refine set_costsLoop_ti_inv _ _ _ ?_
    refine forall_ti_weaken (timeoutLoop_ti_inv _ _ _ _ h) ?_
    exact Nat.le_add_right _ _

theorem processMessage_cases (bs : Buckets)
    (costs : List (BucketName × Nat)) (c : Clock)
    (hdelay : ∀ p ∈ bs, p.2.delay ≤ c.time)
    (hti : ∀ p ∈ bs, p.2.time_instant ≤ c.time)
    (hstrict : ∀ i, 1 ≤ c.incs i)
    (hnodup : (costs.map Prod.fst).Nodup) :
    ∀ (k : BucketName) (b2 : RateLimiterBucket),
      getBucket (processMessage bs costs c).1 k = some b2 →
      ∃ b0, getBucket bs k = some b0 ∧ b2.limit = b0.limit ∧
        (b2.amount ≤ b0.amount ∨
          ∃ cost, (k, cost) ∈ costs ∧ b2.amount ≤ b2.limit + cost) := by
  intro k b2 h
  cases hR : (timeoutLoop bs costs 0 c).2.2 with
  | error e =>
    rw [processMessage_error _ _ _ _ hR] at h
    obtain ⟨b0, hb0, _, l0, _, a0⟩ := timeoutLoop_shape _ _ _ _ _ _ h
    exact ⟨b0, hb0, l0, Or.inl a0⟩
  | ok tmo =>
    by_cases hkin : k ∈ costs.map Prod.fst
    · obtain ⟨b0, hb0, _, l0, _⟩ := processMessage_shape _ _ _ _ _ h
      rw [processMessage_ok _ _ _ _ hR] at h
      obtain ⟨q, hq0, hqfst⟩ := List.mem_map.mp hkin
      have hq : (k, q.2) ∈ costs := by
        rw [← hqfst]
        simpa using hq0
      obtain ⟨b1, hb1, hlim, hint, hdich⟩ :=
        timeoutLoop_key costs k q.2 bs 0 c b0 hnodup hq hdelay hti hb0
          tmo hR
      have hbound := set_costsLoop_key costs k q.2
        (timeoutLoop bs costs 0 c).1 ((timeoutLoop bs costs 0 c).2.1.sleep tmo)
        b1 hnodup hq
        (by
          intro i
          rw [Clock.sleep_incs, timeoutLoop_incs]
          exact hstrict i)
        (by
          intro p hp
          rw [timeoutLoop_isSome]
          exact timeoutLoop_ok_present _ _ _ _ _ hR p hp)
        hb1
        (by
          rcases hdich with hcase | hcase
          · exact Or.inl (by rw [hlim]; exact hcase)
          · exact Or.inr (by rw [Clock.sleep_time]; exact hcase))
        b2 h
      refine ⟨b0, hb0, l0, Or.inr ⟨q.2, hq, ?_⟩⟩
      rw [l0, ← hlim]
      exact hbound
    · rw [processMessage_ok _ _ _ _ hR] at h
      rw [set_costsLoop_frame _ _ hkin, timeoutLoop_frame _ _ _ _ _ hkin]
        at h
      exact ⟨b2, h, rfl, Or.inl (Nat.le_refl _)⟩

theorem processAll_cases (msgs : List (List (BucketName × Nat))) :
    ∀ (bs : Buckets) (c : Clock),
      (∀ p ∈ bs, p.2.delay ≤ c.time) →
      (∀ p ∈ bs, p.2.time_instant ≤ c.time) →
      (∀ i, 1 ≤ c.incs i) →
      (∀ m ∈ msgs, (List.map Prod.fst m).Nodup) →
      ∀ (k : BucketName) (b2 : RateLimiterBucket),
        getBucket (processAll bs msgs c).1 k = some b2 →
        ∃ b0, getBucket bs k = some b0 ∧ b2.limit = b0.limit ∧
          (b2.amount ≤ b0.amount ∨
            ∃ m ∈ msgs, ∃ cost, (k, cost) ∈ m
              ∧ b2.amount ≤ b2.limit + cost) := by
  induction msgs with
  | nil =>
    intro bs c _ _ _ _ k b2 h
    exact ⟨b2, h, rfl, Or.inl (Nat.le_refl _)⟩
  | cons m rest ih =>
    intro bs c hdelay hti hstrict hnodup k b2 h
    simp only [processAll] at h
    obtain ⟨b0m, hb0m, lm, hdichm⟩ := ih (processMessage bs m c).1
      (processMessage bs m c).2.1
      (processMessage_delay_inv _ _ _ hdelay)
      (processMessage_ti_inv _ _ _ hti)
      (by
        intro i
        rw [processMessage_incs]
        exact hstrict i)
      (fun m2 hm2 => hnodup m2 (List.mem_cons_of_mem _ hm2))
      k b2 h
    obtain ⟨b00, hb00, l00, hdich0⟩ := processMessage_cases bs m c hdelay
      hti hstrict (hnodup m (List.mem_cons_self _ _)) k b0m hb0m
    refine ⟨b00, hb00, by rw [lm, l00], ?_⟩
    rcases hdichm with hm1 | ⟨m2, hm2, cost, hc, hb⟩
    · rcases hdich0 with hm0 | ⟨cost, hc, hb⟩
      · exact Or.inl (Nat.le_trans hm1 hm0)
      · refine Or.inr ⟨m, List.mem_cons_self _ _, cost, hc, ?_⟩
        rw [lm]
        exact Nat.le_trans hm1 hb
    · exact Or.inr ⟨m2, List.mem_cons_of_mem _ hm2, cost, hc, hb⟩

end RateLimiter

section RollLemmas

theorem rollAt_eq_pos {t : Nat} {b : RateLimiterBucket}
    (h : b.interval < t - b.time_instant) :
    rollAt t b = { b with time_instant := t, amount := 0 } := by
  simp only [rollAt, if_pos h]

theorem rollAt_eq_neg {t : Nat} {b : RateLimiterBucket}
    (h : ¬ b.interval < t - b.time_instant) : rollAt t b = b := by
  simp only [rollAt, if_neg h]

theorem rollAt_idem (t : Nat) (b : RateLimiterBucket) :
    rollAt t (rollAt t b) = rollAt t b := by
  by_cases h : b.interval < t - b.time_instant
  · rw [rollAt_eq_pos h]
    refine rollAt_eq_neg ?_
    simp
  · rw [rollAt_eq_neg h, rollAt_eq_neg h]

theorem rollAt_delay (t : Nat) (b : RateLimiterBucket) :
    (rollAt t b).delay = b.delay := by
  by_cases h : b.interval < t - b.time_instant
  · rw [rollAt_eq_pos h]
  · rw [rollAt_eq_neg h]

theorem rollAt_no_underflow (t : Nat) (b : RateLimiterBucket) :
    t - (rollAt t b).time_instant ≤ (rollAt t b).interval := by
  by_cases h : b.interval < t - b.time_instant
  · rw [rollAt_eq_pos h]
    simp
  · rw [rollAt_eq_neg h]
    omega

theorem rollAt_amount_le (t : Nat) (b : RateLimiterBucket) :
    (rollAt t b).amount ≤ b.amount := by
  by_cases h : b.interval < t - b.time_instant
  · rw [rollAt_eq_pos h]
    exact Nat.zero_le _
  · rw [rollAt_eq_neg h]

theorem rollAt_interval (t : Nat) (b : RateLimiterBucket) :
    (rollAt t b).interval = b.interval := by
  by_cases h : b.interval < t - b.time_instant
  · rw [rollAt_eq_pos h]
  · rw [rollAt_eq_neg h]

theorem rollAt_limit (t : Nat) (b : RateLimiterBucket) :
    (rollAt t b).limit = b.limit := by
  by_cases h : b.interval < t - b.time_instant
  · rw [rollAt_eq_pos h]
  · rw [rollAt_eq_neg h]

theorem contribution_rollAt (b : RateLimiterBucket) (cost t : Nat) :
    contribution (rollAt t b) cost t = contribution b cost t := by
  simp only [contribution, rollAt_idem]

theorem reset_outdated_zclock (b : RateLimiterBucket) (t i : Nat) :
    b.reset_outdated (zclock t i)
      = (rollAt t b,
         zclock t (if b.interval < t - b.time_instant
           then i + 1 + 1 else i + 1)) := by
  by_cases h : b.interval < t - b.time_instant
  · simp [RateLimiterBucket.reset_outdated, rollAt, now_zclock, h]
  · simp [RateLimiterBucket.reset_outdated, rollAt, now_zclock, h]

end RollLemmas

section FoldMaxLemmas

theorem foldr_max_congr {α : Type} (f g : α → Nat) (l : List α) (a : Nat)
    (h : ∀ x ∈ l, f x = g x) :
    l.foldr (fun x acc => max (f x) acc) a
      = l.foldr (fun x acc => max (g x) acc) a := by
  induction l with
  | nil => rfl
  | cons x xs ih =>
    simp only [List.foldr]
    rw [h x (List.mem_cons_self _ _),
      ih (fun y hy => h y (List.mem_cons_of_mem _ hy))]

theorem foldr_max_seed {α : Type} (f : α → Nat) (l : List α) (a b : Nat) :
    l.foldr (fun x acc => max (f x) acc) (max a b)
      = max a (l.foldr (fun x acc => max (f x) acc) b) := by
  induction l with
  | nil => rfl
  | cons x xs ih =>
    simp only [List.foldr, ih]
    exact max_left_comm _ _ _

theorem ite_lt_eq_max (a b : Nat) : (if a < b then b else a) = max b a := by
  rcases Nat.lt_or_ge a b with h | h
  · rw [if_pos h, Nat.max_eq_left (Nat.le_of_lt h)]
  · rw [if_neg (Nat.not_lt.mpr h), Nat.max_eq_right h]

theorem le_foldr_max {α : Type} (f : α → Nat) (l : List α) (a : Nat) :
    ∀ x ∈ l, f x ≤ l.foldr (fun x acc => max (f x) acc) a := by
  induction l with
  | nil => intro x hx; simp at hx
  | cons y ys ih =>
    intro x hx
    rcases List.mem_cons.mp hx with rfl | hx2
    · exact Nat.le_max_left _ _
    · exact Nat.le_trans (ih x hx2) (Nat.le_max_right _ _)

theorem foldr_max_perm {α : Type} (f : α → Nat) {l1 l2 : List α}
    (h : l1.Perm l2) (a : Nat) :
    l1.foldr (fun x acc => max (f x) acc) a
      = l2.foldr (fun x acc => max (f x) acc) a := by
  induction h with
  | nil => rfl
  | cons x h ih => simp only [List.foldr, ih]
  | swap x y l =>
    simp only [List.foldr]
    exact max_left_comm _ _ _
  | trans h1 h2 ih1 ih2 => rw [ih1, ih2]

end FoldMaxLemmas

namespace RateLimiter

theorem hres_update {bs : Buckets} {name : BucketName}
    {b bnew : RateLimiterBucket} {t : Nat}
    (hg : getBucket bs name = some b) (hd : bnew.delay = b.delay)
    {costs1 : List (BucketName × Nat)}
    (hres : ∀ p ∈ costs1, ∃ b0, getBucket bs p.1 = some b0 ∧ b0.delay ≤ t) :
    ∀ p ∈ costs1, ∃ b0, getBucket (updateBucket bs name bnew) p.1 = some b0
      ∧ b0.delay ≤ t := by
  intro p hp
  obtain ⟨b0, hb0, hbd⟩ := hres p hp
  by_cases hk : name = p.1
  · subst hk
    refine ⟨bnew, getBucket_updateBucket_self _ hg, ?_⟩
    rw [hd]
    rw [hg] at hb0
    obtain rfl := Option.some.inj hb0
    exact hbd
  · exact ⟨b0, by rw [getBucket_updateBucket_ne _ hk]; exact hb0, hbd⟩

theorem contributionOf_update_rollAt {bs : Buckets} {name : BucketName}
    {b : RateLimiterBucket} (hg : getBucket bs name = some b) (t : Nat) :
    ∀ p : BucketName × Nat,
      contributionOf (updateBucket bs name (rollAt t b)) p t
        = contributionOf bs p t := by
  intro p
  by_cases hk : name = p.1
  · subst hk
    simp only [contributionOf, getBucket_updateBucket_self _ hg, hg]
    exact contribution_rollAt _ _ _
  · simp only [contributionOf, getBucket_updateBucket_ne _ hk]

theorem timeoutLoop_zclock (costs : List (BucketName × Nat)) :
    ∀ (bs : Buckets) (tmo t i : Nat),
      (∀ p ∈ costs, ∃ b, getBucket bs p.1 = some b ∧ b.delay ≤ t) →
      ∃ (bs1 : Buckets) (j : Nat),
        timeoutLoop bs costs tmo (zclock t i)
          = (bs1, zclock t j,
             Except.ok (costs.foldr
               (fun p acc => max (contributionOf bs p t) acc) tmo)) := by
  induction costs with
  | nil =>
    intro bs tmo t i _
    exact ⟨bs, i, rfl⟩
  | cons q rest ih =>
    obtain ⟨name, cost⟩ := q
    intro bs tmo t i hres
    obtain ⟨b, hg, hbd⟩ := hres (name, cost) (List.mem_cons_self _ _)
    have hdz : b.delay - t = 0 := Nat.sub_eq_zero_of_le hbd
    simp only [timeoutLoop, hg, now_zclock, reset_outdated_zclock]
    rw [if_neg (by simp [hdz] : ¬ b.delay - t ≠ 0)]
    have hcontrib : contributionOf bs (name, cost) t
        = (if (rollAt t b).limit < (rollAt t b).amount + cost
            then (rollAt t b).interval - (t - (rollAt t b).time_instant)
            else 0) := by
      simp only [contributionOf, hg, contribution]
    have hres2 := hres_update hg (rollAt_delay t b)
      (fun p hp => hres p (List.mem_cons_of_mem _ hp))
    by_cases hcap : (rollAt t b).limit < (rollAt t b).amount + cost
    · rw [if_pos hcap]
      rw [if_neg (Nat.not_lt.mpr (rollAt_no_underflow t b))]
      obtain ⟨bs1, j, heq⟩ := ih (updateBucket bs name (rollAt t b))
        (if tmo < (rollAt t b).interval - (t - (rollAt t b).time_instant)
          then (rollAt t b).interval - (t - (rollAt t b).time_instant)
          else tmo) t _ hres2
      refine ⟨bs1, j, ?_⟩
      rw [heq]
      simp only [List.foldr]
      rw [foldr_max_congr _ (fun p => contributionOf bs p t) _ _
        (fun p _ => contributionOf_update_rollAt hg t p)]
      rw [hcontrib, if_pos hcap, ite_lt_eq_max, foldr_max_seed]
    · rw [if_neg hcap]
      obtain ⟨bs1, j, heq⟩ := ih (updateBucket bs name (rollAt t b))
        tmo t _ hres2
      refine ⟨bs1, j, ?_⟩
      rw [heq]
      simp only [List.foldr]
      rw [foldr_max_congr _ (fun p => contributionOf bs p t) _ _
        (fun p _ => contributionOf_update_rollAt hg t p)]
      rw [hcontrib, if_neg hcap, Nat.zero_max]

theorem timeoutLoop_zclock_undefined (costs : List (BucketName × Nat)) :
    ∀ (bs : Buckets) (tmo t i : Nat),
      (∃ p ∈ costs, getBucket bs p.1 = none) →
      ∃ nm, (∃ cst, (nm, cst) ∈ costs) ∧ getBucket bs nm = none ∧
        (timeoutLoop bs costs tmo (zclock t i)).2.2
          = Except.error (RLFail.undefinedBucket nm) := by
  induction costs with
  | nil =>
    intro bs tmo t i habs
    simp at habs
  | cons q rest ih =>
    obtain ⟨name, cost⟩ := q
    intro bs tmo t i habs
    cases hg : getBucket bs name with
    | none =>
      exact ⟨name, ⟨cost, List.mem_cons_self _ _⟩, hg,
        by simp [timeoutLoop, hg]⟩
    | some b =>
      have habs2 : ∃ p ∈ rest, getBucket bs p.1 = none := by
        obtain ⟨p, hp, hpn⟩ := habs
        rcases List.mem_cons.mp hp with rfl | hp2
        · rw [hg] at hpn
          simp at hpn
        · exact ⟨p, hp2, hpn⟩
      simp only [timeoutLoop, hg, now_zclock, reset_outdated_zclock]
      have habs3 : ∃ p ∈ rest,
          getBucket (updateBucket bs name (rollAt t b)) p.1 = none := by
        obtain ⟨p, hp, hpn⟩ := habs2
        have hne : name ≠ p.1 := by
          intro hcon
          rw [← hcon, hg] at hpn
          simp at hpn
        exact ⟨p, hp, by rw [getBucket_updateBucket_ne _ hne]; exact hpn⟩
      by_cases hd : b.delay - t ≠ 0
      · rw [if_pos hd]
        obtain ⟨nm, ⟨cst, hmem⟩, hnone, herr⟩ := ih bs _ t _ habs2
        exact ⟨nm, ⟨cst, List.mem_cons_of_mem _ hmem⟩, hnone, herr⟩
      · rw [if_neg hd]
        by_cases hcap : (rollAt t b).limit < (rollAt t b).amount + cost
        · rw [if_pos hcap,
            if_neg (Nat.not_lt.mpr (rollAt_no_underflow t b))]
          obtain ⟨nm, ⟨cst, hmem⟩, hnone, herr⟩ := ih _ _ t _ habs3
          have hne : name ≠ nm := by
            intro hcon
            rw [← hcon, getBucket_updateBucket_self _ hg] at hnone
            simp at hnone
          rw [getBucket_updateBucket_ne _ hne] at hnone
          exact ⟨nm, ⟨cst, List.mem_cons_of_mem _ hmem⟩, hnone, herr⟩
        · rw [if_neg hcap]
          obtain ⟨nm, ⟨cst, hmem⟩, hnone, herr⟩ := ih _ _ t _ habs3
          have hne : name ≠ nm := by
            intro hcon
            rw [← hcon, getBucket_updateBucket_self _ hg] at hnone
            simp at hnone
          rw [getBucket_updateBucket_ne _ hne] at hnone
          exact ⟨nm, ⟨cst, List.mem_cons_of_mem _ hmem⟩, hnone, herr⟩

theorem timeoutLoop_zclock_getBucket (costs : List (BucketName × Nat)) :
    ∀ (bs : Buckets) (tmo t i : Nat) (k : BucketName)
      (b : RateLimiterBucket),
      getBucket bs k = some b →
      (∀ p ∈ costs, ∃ b0, getBucket bs p.1 = some b0 ∧ b0.delay ≤ t) →
      getBucket (timeoutLoop bs costs tmo (zclock t i)).1 k
        = some (if k ∈ costs.map Prod.fst then rollAt t b else b) := by
  induction costs with
  | nil =>
    intro bs tmo t i k b hb _
    simpa using hb
  | cons q rest ih =>
    obtain ⟨name, cost⟩ := q
    intro bs tmo t i k b hb hres
    obtain ⟨b0, hg, hbd⟩ := hres (name, cost) (List.mem_cons_self _ _)
    have hdz : b0.delay - t = 0 := Nat.sub_eq_zero_of_le hbd
    simp only [timeoutLoop, hg, now_zclock, reset_outdated_zclock]
    rw [if_neg (by simp [hdz] : ¬ b0.delay - t ≠ 0)]
    have hres2 := hres_update hg (rollAt_delay t b0)
      (fun p hp => hres p (List.mem_cons_of_mem _ hp))
    have hmain : ∀ (tmo2 i2 : Nat),
        getBucket (timeoutLoop (updateBucket bs name (rollAt t b0)) rest
          tmo2 (zclock t i2)).1 k
          = some (if k ∈ ((name, cost) :: rest).map Prod.fst
              then rollAt t b else b) := by
      intro tmo2 i2
      by_cases hk : name = k
      · subst hk
        rw [hg] at hb
        obtain rfl := (Option.some.inj hb).symm
        have hb1 : getBucket (updateBucket bs name (rollAt t b)) name
            = some (rollAt t b) := getBucket_updateBucket_self _ hg
        have h2 := ih (updateBucket bs name (rollAt t b)) tmo2 t i2 name
          (rollAt t b) hb1 hres2
        rw [rollAt_idem, ite_self] at h2
        rw [h2, if_pos (by simp)]
      · have hb1 : getBucket (updateBucket bs name (rollAt t b0)) k
            = some b := by
          rw [getBucket_updateBucket_ne _ hk]
          exact hb
        have h2 := ih (updateBucket bs name (rollAt t b0)) tmo2 t i2 k b
          hb1 hres2
        by_cases hkr : k ∈ rest.map Prod.fst
        · rw [if_pos hkr] at h2
          rw [h2, if_pos (by simp [hkr])]
        · rw [if_neg hkr] at h2
          rw [h2, if_neg (by
            simp only [List.map_cons, List.mem_cons]
            push_neg
            exact ⟨fun hc => hk hc.symm, hkr⟩)]
    by_cases hcap : (rollAt t b0).limit < (rollAt t b0).amount + cost
    · rw [if_pos hcap, if_neg (Nat.not_lt.mpr (rollAt_no_underflow t b0))]
      exact hmain _ _
    · rw [if_neg hcap]
      exact hmain _ _

theorem set_costsLoop_zclock_single (k : BucketName) (cost : Nat)
    (bs : Buckets) (t i : Nat) (b : RateLimiterBucket)
    (hb : getBucket bs k = some b) :
    (set_costsLoop bs [(k, cost)] (zclock t i)).2.2 = Except.ok () ∧
    getBucket (set_costsLoop bs [(k, cost)] (zclock t i)).1 k
      = some { rollAt t b with amount := (rollAt t b).amount + cost } ∧
    (set_costsLoop bs [(k, cost)] (zclock t i)).2.1.time = t := by
  refine ⟨?_, ?_, ?_⟩
  · simp [set_costsLoop, hb, reset_outdated_zclock]
  · simp only [set_costsLoop, hb, reset_outdated_zclock]
    exact getBucket_updateBucket_self _ hb
  · simp only [set_costsLoop, hb, reset_outdated_zclock]
    simp [zclock]

theorem processMessage_single_zclock (k : BucketName)
    (b : RateLimiterBucket) (cost t i : Nat) (hd : b.delay ≤ t) :
    (processMessage [(k, b)] [(k, cost)] (zclock t i)).2.2
      = Except.ok () ∧
    (processMessage [(k, b)] [(k, cost)] (zclock t i)).2.1.time
      = t + contribution b cost t ∧
    getBucket (processMessage [(k, b)] [(k, cost)] (zclock t i)).1 k
      = some { rollAt (t + contribution b cost t) (rollAt t b) with
          amount := (rollAt (t + contribution b cost t)
            (rollAt t b)).amount + cost } := by
  have hb : getBucket [(k, b)] k = some b := by simp [getBucket]
  have hres : ∀ p ∈ [(k, cost)], ∃ b0, getBucket [(k, b)] p.1 = some b0
      ∧ b0.delay ≤ t := by
    intro p hp
    obtain rfl := List.mem_singleton.mp hp
    exact ⟨b, hb, hd⟩
  obtain ⟨bs1, j, heq⟩ := timeoutLoop_zclock [(k, cost)] [(k, b)] 0 t i
    hres
  have hfold : List.foldr
      (fun p acc => max (contributionOf [(k, b)] p t) acc) 0 [(k, cost)]
      = contribution b cost t := by
    simp [List.foldr, contributionOf, hb]
  have hok : (timeoutLoop [(k, b)] [(k, cost)] 0 (zclock t i)).2.2
      = Except.ok (contribution b cost t) := by
    rw [heq]
    simp only []
    rw [hfold]
  have hb1 : getBucket bs1 k = some (rollAt t b) := by
    have h2 := timeoutLoop_zclock_getBucket [(k, cost)] [(k, b)] 0 t i k b
      hb hres
    rw [heq] at h2
    rwa [if_pos (by simp)] at h2
  rw [processMessage_ok _ _ _ _ hok, heq]
  simp only [sleep_zclock]
  obtain ⟨hs1, hs2, hs3⟩ := set_costsLoop_zclock_single k cost bs1
    (t + contribution b cost t) j (rollAt t b) hb1
  exact ⟨hs1, hs3, hs2⟩

end RateLimiter

section ClaimTheorems

/-- Claim C1 counterexample: with bucket `a` over its limit (individual
contribution 15) examined before bucket `b` whose activation delay is
still pending (contribution 1), the pass returns a wait of 1 - the delay
branch overwrites the accumulated wait instead of taking a maximum - so
the result depends on examination order and is smaller than bucket `a`'s
individual contribution. -/
theorem timeout_not_max_of_delay_overwrite :
    (RateLimiter.timeoutLoop
      [("a", ⟨95, 0, 20, 5, 5⟩), ("b", ⟨100, 101, 0, 0, 0⟩)]
      [("a", 1), ("b", 1)] 0 (zclock 100 0)).2.2 = Except.ok 1 ∧
    (RateLimiter.timeoutLoop
      [("a", ⟨95, 0, 20, 5, 5⟩), ("b", ⟨100, 101, 0, 0, 0⟩)]
      [("b", 1), ("a", 1)] 0 (zclock 100 0)).2.2 = Except.ok 15 ∧
    contribution ⟨95, 0, 20, 5, 5⟩ 1 100 = 15 ∧ (1 : Nat) < 15 :=
  ⟨rfl, rfl, rfl, by decide⟩

/-- Claim C1 (amended): when no referenced bucket is under its activation
delay and the pass examines the buckets at a single instant `t`, the
accumulated wait equals the maximum of the per-bucket contributions
(`interval - elapsed` for a bucket whose `amount + cost` would exceed its
limit after the window roll, zero otherwise), it is never below any
single contribution, and it is independent of the order in which the
buckets of the cost vector are examined. -/
theorem timeout_eq_max_contribution (bs : Buckets)
    (costs : List (BucketName × Nat)) (tmo t i : Nat)
    (hres : ∀ p ∈ costs, ∃ b, getBucket bs p.1 = some b ∧ b.delay ≤ t) :
    (RateLimiter.timeoutLoop bs costs tmo (zclock t i)).2.2
      = Except.ok (costs.foldr
          (fun p acc => max (contributionOf bs p t) acc) tmo) ∧
    (∀ p ∈ costs, contributionOf bs p t
      ≤ costs.foldr (fun p acc => max (contributionOf bs p t) acc) tmo) ∧
    (∀ costs2, costs.Perm costs2 →
      (RateLimiter.timeoutLoop bs costs2 tmo (zclock t i)).2.2
        = (RateLimiter.timeoutLoop bs costs tmo (zclock t i)).2.2) := by
  obtain ⟨bs1, j, heq⟩ := RateLimiter.timeoutLoop_zclock costs bs tmo t i
    hres
  refine ⟨by rw [heq], ?_, ?_⟩
  · exact le_foldr_max (fun p => contributionOf bs p t) costs tmo
  · intro costs2 hperm
    obtain ⟨bs2, j2, heq2⟩ := RateLimiter.timeoutLoop_zclock costs2 bs tmo
      t i (fun p hp => hres p (hperm.mem_iff.mpr hp))
    rw [heq, heq2]
    rw [foldr_max_perm (fun p => contributionOf bs p t) hperm tmo]

/-- Claim C9 counterexample: for a bucket with `interval = 0` (the default
configuration) and a clock that strictly advances between adjacent
readings, the wait-time pass reaches `interval - elapsed` with
`elapsed > interval`, i.e. the Rust `Duration` subtraction underflows and
the pass panics. -/
theorem duration_underflow_cx :
    (RateLimiter.timeoutLoop [("b", ⟨0, 0, 0, 0, 0⟩)] [("b", 1)] 0
      ⟨0, fun _ => 1, 0⟩).2.2 = Except.error RLFail.durationUnderflow :=
  rfl

/-- Claim C9 (amended): when the wait-time pass examines the buckets at a
single instant (no time passes between the clock readings of one
examination), the `interval - elapsed` subtraction never underflows: the
pass either succeeds or fails with an undefined-bucket error, for every
bucket configuration including `interval = 0`. -/
theorem no_underflow_at_frozen_clock (bs : Buckets)
    (costs : List (BucketName × Nat)) (tmo t i : Nat) :
    (∃ v, (RateLimiter.timeoutLoop bs costs tmo (zclock t i)).2.2
      = Except.ok v) ∨
    (∃ nm, (RateLimiter.timeoutLoop bs costs tmo (zclock t i)).2.2
      = Except.error (RLFail.undefinedBucket nm)) := by
  induction costs generalizing bs tmo i with
  | nil => exact Or.inl ⟨tmo, rfl⟩
  | cons q rest ih =>
    obtain ⟨name, cost⟩ := q
    cases hg : getBucket bs name with
    | none =>
      exact Or.inr ⟨name, by simp [RateLimiter.timeoutLoop, hg]⟩
    | some b =>
      simp only [RateLimiter.timeoutLoop, hg, now_zclock,
        reset_outdated_zclock]
      by_cases hd : b.delay - t ≠ 0
      · rw [if_pos hd]
        exact ih _ _ _
      · rw [if_neg hd]
        by_cases hcap : (rollAt t b).limit < (rollAt t b).amount + cost
        · rw [if_pos hcap,
            if_neg (Nat.not_lt.mpr (rollAt_no_underflow t b))]
          exact ih _ _ _
        · rw [if_neg hcap]
          exact ih _ _ _

/-- Claim C3: a request whose cost vector names a bucket absent from the
registry fails with an undefined-bucket error raised in the wait-time
pass, the commit pass never runs, and no bucket's amount is increased
(window rolls may still zero an amount, but never raise one). -/
theorem undefined_bucket_fails_without_commit (bs : Buckets)
    (costs : List (BucketName × Nat)) (t i : Nat)
    (habs : ∃ p ∈ costs, getBucket bs p.1 = none) :
    (∃ nm, (∃ cst, (nm, cst) ∈ costs) ∧ getBucket bs nm = none ∧
      (RateLimiter.processMessage bs costs (zclock t i)).2.2
        = Except.error (RLFail.undefinedBucket nm)) ∧
    ∀ (k : BucketName) (b0 b2 : RateLimiterBucket),
      getBucket bs k = some b0 →
      getBucket (RateLimiter.processMessage bs costs (zclock t i)).1 k
        = some b2 →
      b2.amount ≤ b0.amount := by
  obtain ⟨nm, hnm, hnone, herr⟩ :=
    RateLimiter.timeoutLoop_zclock_undefined costs bs 0 t i habs
  constructor
  · exact ⟨nm, hnm, hnone,
      by rw [RateLimiter.processMessage_error _ _ _ _ herr]⟩
  · intro k b0 b2 hk h2
    rw [RateLimiter.processMessage_error _ _ _ _ herr] at h2
    obtain ⟨b0x, hb0x, _, _, _, ha⟩ :=
      RateLimiter.timeoutLoop_shape _ _ _ _ _ _ h2
    rw [hk] at hb0x
    obtain rfl := Option.some.inj hb0x
    exact ha

/-- Claim C2 counterexample: two sequentially decided admissions, each of
individual cost 10 against bucket `a` (`limit = 5`), leave `amount = 20`
in a single window: the second request's computed wait for `a` is
overwritten by the pending activation delay of bucket `b`, the sleep is
too short, no window roll occurs at commit, and the committed amount
exceeds the limit by 15, more than any single request's cost. -/
theorem overshoot_exceeds_single_cost_cx :
    getBucket (RateLimiter.processAll
      [("a", ⟨0, 0, 1000, 5, 0⟩), ("b", ⟨0, 1010, 0, 0, 0⟩)]
      [[("a", 10)], [("a", 10), ("b", 1)]]
      ⟨0, fun _ => 1, 0⟩).1 "a"
      = some ⟨1002, 0, 1000, 5, 20⟩ ∧
    (RateLimiter.processAll
      [("a", ⟨0, 0, 1000, 5, 0⟩), ("b", ⟨0, 1010, 0, 0, 0⟩)]
      [[("a", 10)], [("a", 10), ("b", 1)]]
      ⟨0, fun _ => 1, 0⟩).2.2 = [Except.ok (), Except.ok ()] ∧
    (∀ m ∈ [[("a", 10)], [("a", 10), ("b", 1)]],
      ∀ p ∈ m, p.2 ≤ 10) ∧ 5 + 10 < 20 :=
  ⟨rfl, rfl, by decide, by decide⟩

/-- Claim C2 (amended): requests are decided one at a time in submission
order; provided no bucket of any cost vector is under its activation
delay (whose handling overwrites the accumulated wait), the clock
strictly advances at each reading, each cost vector names a bucket at
most once, and every bucket starts within its limit, then after any
sequence of sequentially decided admissions every bucket's committed
amount exceeds its limit by at most the cost that a single request in the
sequence declared against it. -/
theorem amount_bounded_by_limit_plus_single_cost (bs : Buckets)
    (msgs : List (List (BucketName × Nat))) (c : Clock)
    (hdelay : ∀ p ∈ bs, p.2.delay ≤ c.time)
    (hti : ∀ p ∈ bs, p.2.time_instant ≤ c.time)
    (hstrict : ∀ i, 1 ≤ c.incs i)
    (hnodup : ∀ m ∈ msgs, (List.map Prod.fst m).Nodup)
    (hinit : ∀ p ∈ bs, p.2.amount ≤ p.2.limit) :
    ∀ (k : BucketName) (b2 : RateLimiterBucket),
      getBucket (RateLimiter.processAll bs msgs c).1 k = some b2 →
      b2.amount ≤ b2.limit ∨
        ∃ m ∈ msgs, ∃ cost, (k, cost) ∈ m
          ∧ b2.amount ≤ b2.limit + cost := by
  intro k b2 h
  obtain ⟨b0, hb0, hl, hdich⟩ := RateLimiter.processAll_cases msgs bs c
    hdelay hti hstrict hnodup k b2 h
  rcases hdich with h1 | h1
  · left
    rw [hl]
    exact Nat.le_trans h1 (hinit _ (getBucket_mem hb0))
  · right
    exact h1

/-- Claim C2 witness at a concrete instance. -/
theorem amount_bounded_by_limit_plus_single_cost_witness :
    (∀ p ∈ ([("a", ⟨0, 0, 10, 3, 0⟩)] : Buckets), p.2.delay ≤ 0) ∧
    (∀ (k : BucketName) (b2 : RateLimiterBucket),
      getBucket (RateLimiter.processAll [("a", ⟨0, 0, 10, 3, 0⟩)]
        [[("a", 2)]] ⟨0, fun _ => 1, 0⟩).1 k = some b2 →
      b2.amount ≤ b2.limit ∨
        ∃ m ∈ [[("a", 2)]], ∃ cost, (k, cost) ∈ m
          ∧ b2.amount ≤ b2.limit + cost) :=
  ⟨by decide,
   amount_bounded_by_limit_plus_single_cost [("a", ⟨0, 0, 10, 3, 0⟩)]
     [[("a", 2)]] ⟨0, fun _ => 1, 0⟩ (by decide) (by decide)
     (fun _ => Nat.le_refl 1) (by decide) (by decide)⟩

/-- Claim C1 witness at a concrete instance. -/
theorem timeout_eq_max_contribution_witness :
    (∀ p ∈ [(("a", 1) : BucketName × Nat), ("b", 2)],
      ∃ b, getBucket [("a", (⟨90, 50, 20, 5, 5⟩ : RateLimiterBucket)),
        ("b", ⟨100, 100, 30, 2, 0⟩)] p.1 = some b ∧ b.delay ≤ 100) ∧
    (RateLimiter.timeoutLoop [("a", ⟨90, 50, 20, 5, 5⟩),
        ("b", ⟨100, 100, 30, 2, 0⟩)]
      [("a", 1), ("b", 2)] 0 (zclock 100 0)).2.2
      = Except.ok (List.foldr
          (fun p acc => max (contributionOf [("a", ⟨90, 50, 20, 5, 5⟩),
            ("b", ⟨100, 100, 30, 2, 0⟩)] p 100) acc) 0
          [("a", 1), ("b", 2)]) :=
  ⟨by decide,
   (timeout_eq_max_contribution [("a", ⟨90, 50, 20, 5, 5⟩),
      ("b", ⟨100, 100, 30, 2, 0⟩)] [("a", 1), ("b", 2)] 0 100 0
      (by decide)).1⟩

/-- Claim C3 witness at a concrete instance. -/
theorem undefined_bucket_fails_without_commit_witness :
    (∃ p ∈ [(("a", 1) : BucketName × Nat), ("u", 1)],
      getBucket [("a", (⟨0, 0, 10, 5, 5⟩ : RateLimiterBucket))] p.1
        = none) ∧
    ((∃ nm, (∃ cst, (nm, cst) ∈ [(("a", 1) : BucketName × Nat), ("u", 1)])
        ∧ getBucket [("a", (⟨0, 0, 10, 5, 5⟩ : RateLimiterBucket))] nm
          = none ∧
      (RateLimiter.processMessage [("a", ⟨0, 0, 10, 5, 5⟩)]
        [("a", 1), ("u", 1)] (zclock 100 0)).2.2
        = Except.error (RLFail.undefinedBucket nm)) ∧
    ∀ (k : BucketName) (b0 b2 : RateLimiterBucket),
      getBucket [("a", (⟨0, 0, 10, 5, 5⟩ : RateLimiterBucket))] k
        = some b0 →
      getBucket (RateLimiter.processMessage [("a", ⟨0, 0, 10, 5, 5⟩)]
        [("a", 1), ("u", 1)] (zclock 100 0)).1 k = some b2 →
      b2.amount ≤ b0.amount) :=
  ⟨by decide,
   undefined_bucket_fails_without_commit [("a", ⟨0, 0, 10, 5, 5⟩)]
     [("a", 1), ("u", 1)] 100 0 (by decide)⟩

/-- Claim C4: windows are fixed, not sliding.  When `now - window_start`
strictly exceeds `interval` at examination, the bucket resets to
`amount = 0, window_start = now`.  Consequently a bucket with interval
`I` and limit `L` that has committed `L` admits another `L` with zero
wait once more than `I` has elapsed, while a request bringing the total
to `L + 1` inside the window is granted after a wait of exactly
`interval - elapsed` and commits to `amount = L + 1`. -/
theorem fixed_window_reset_and_scenarios (k : BucketName) (d I L : Nat)
    (ti a t i : Nat) (h1 : I < t - ti)
    (ti2 t2 i2 : Nat) (h2d : d ≤ t2) (h2 : I < t2 - ti2)
    (ti3 a3 cst t3 i3 : Nat) (h3d : d ≤ t3) (h3ti : ti3 ≤ t3)
    (h3w : t3 - ti3 ≤ I) (h3sum : a3 + cst = L + 1) :
    ((RateLimiterBucket.mk ti d I L a).reset_outdated (zclock t i)).1
      = ⟨t, d, I, L, 0⟩ ∧
    ((RateLimiter.processMessage [(k, ⟨ti2, d, I, L, L⟩)] [(k, L)]
        (zclock t2 i2)).2.2 = Except.ok () ∧
      (RateLimiter.processMessage [(k, ⟨ti2, d, I, L, L⟩)] [(k, L)]
        (zclock t2 i2)).2.1.time = t2 ∧
      ∃ b4, getBucket (RateLimiter.processMessage
          [(k, ⟨ti2, d, I, L, L⟩)] [(k, L)] (zclock t2 i2)).1 k
        = some b4 ∧ b4.amount = L ∧ b4.time_instant = t2) ∧
    ((RateLimiter.processMessage [(k, ⟨ti3, d, I, L, a3⟩)] [(k, cst)]
        (zclock t3 i3)).2.2 = Except.ok () ∧
      (RateLimiter.processMessage [(k, ⟨ti3, d, I, L, a3⟩)] [(k, cst)]
        (zclock t3 i3)).2.1.time = t3 + (I - (t3 - ti3)) ∧
      ∃ b5, getBucket (RateLimiter.processMessage
          [(k, ⟨ti3, d, I, L, a3⟩)] [(k, cst)] (zclock t3 i3)).1 k
        = some b5 ∧ b5.amount = L + 1) := by
  refine ⟨?_, ?_, ?_⟩
  · rw [reset_outdated_zclock]
    exact rollAt_eq_pos h1
  · have hcontrib : contribution ⟨ti2, d, I, L, L⟩ L t2 = 0 := by
      simp only [contribution]
      rw [rollAt_eq_pos h2]
      simp
    obtain ⟨ho, htime, hbuck⟩ := RateLimiter.processMessage_single_zclock
      k ⟨ti2, d, I, L, L⟩ L t2 i2 h2d
    rw [hcontrib, Nat.add_zero] at htime hbuck
    rw [rollAt_idem, rollAt_eq_pos h2] at hbuck
    refine ⟨ho, htime, ⟨_, hbuck, ?_, rfl⟩⟩
    simp
  · have hnr : ¬ (⟨ti3, d, I, L, a3⟩ : RateLimiterBucket).interval
        < t3 - (⟨ti3, d, I, L, a3⟩ : RateLimiterBucket).time_instant := by
      show ¬ I < t3 - ti3
      omega
    have hcontrib : contribution ⟨ti3, d, I, L, a3⟩ cst t3
        = I - (t3 - ti3) := by
      simp only [contribution]
      rw [rollAt_eq_neg hnr]
      rw [if_pos (by show L < a3 + cst; omega)]
    obtain ⟨ho, htime, hbuck⟩ := RateLimiter.processMessage_single_zclock
      k ⟨ti3, d, I, L, a3⟩ cst t3 i3 h3d
    rw [hcontrib] at htime hbuck
    rw [rollAt_eq_neg hnr] at hbuck
    have hnr2 : ¬ (⟨ti3, d, I, L, a3⟩ : RateLimiterBucket).interval
        < (t3 + (I - (t3 - ti3)))
          - (⟨ti3, d, I, L, a3⟩ : RateLimiterBucket).time_instant := by
      show ¬ I < t3 + (I - (t3 - ti3)) - ti3
      omega
    rw [rollAt_eq_neg hnr2] at hbuck
    refine ⟨ho, htime, ⟨_, hbuck, ?_⟩⟩
    show a3 + cst = L + 1
    exact h3sum

/-- Claim C4 witness at a concrete instance. -/
theorem fixed_window_reset_and_scenarios_witness :
    ((5 : Nat) < 20 - 0 ∧ (5 : Nat) < 30 - 3 ∧ (2 : Nat) ≤ 10
      ∧ (10 : Nat) - 8 ≤ 5 ∧ (3 : Nat) + 2 = 4 + 1) ∧
    ((RateLimiterBucket.mk 0 2 5 4 3).reset_outdated (zclock 20 0)).1
      = ⟨20, 2, 5, 4, 0⟩ := by
  refine ⟨by decide, ?_⟩
  exact (fixed_window_reset_and_scenarios "a" 2 5 4 0 3 20 0 (by decide)
    3 30 0 (by decide) (by decide) 8 3 2 10 0 (by decide) (by decide)
    (by decide) (by decide)).1

/-- Claim C5 counterexample: a request of cost 1 against a
default-configured bucket (zero delay, zero interval, zero limit) is not
rejected with an error: it is granted immediately with success, leaving
`amount = 1` above the zero limit. -/
theorem default_bucket_grants_cx :
    (RateLimiter.processMessage [("k", ⟨0, 0, 0, 0, 0⟩)] [("k", 1)]
      (zclock 5 0)).2.2 = Except.ok () ∧
    getBucket (RateLimiter.processMessage [("k", ⟨0, 0, 0, 0, 0⟩)]
      [("k", 1)] (zclock 5 0)).1 "k" = some ⟨5, 0, 0, 0, 1⟩ :=
  ⟨rfl, rfl⟩

/-- Claim C5 (amended): for a bucket left at its default configuration,
a positive-cost request is never rejected with an error: examined at a
single instant, the over-limit detection computes a zero wait (the
zero-length window has always just been rolled), the request is granted
immediately and commits `amount = cost`, which exceeds the zero limit. -/
theorem default_bucket_admits_immediately (k : BucketName)
    (t0 d t cost i : Nat) (hd : d ≤ t) (_ht0 : t0 ≤ t) (hc : 0 < cost) :
    (RateLimiter.processMessage [(k, RateLimiterBucket.mkDefault t0 d)]
      [(k, cost)] (zclock t i)).2.2 = Except.ok () ∧
    (RateLimiter.processMessage [(k, RateLimiterBucket.mkDefault t0 d)]
      [(k, cost)] (zclock t i)).2.1.time = t ∧
    ∃ b2, getBucket (RateLimiter.processMessage
        [(k, RateLimiterBucket.mkDefault t0 d)] [(k, cost)]
        (zclock t i)).1 k = some b2
      ∧ b2.amount = cost ∧ b2.limit < b2.amount := by
  have hcontrib : contribution (RateLimiterBucket.mkDefault t0 d) cost t
      = 0 := by
    simp only [contribution]
    split
    · rw [rollAt_interval]
      show (0 : Nat)
        - (t - (rollAt t (RateLimiterBucket.mkDefault t0 d)).time_instant)
        = 0
      exact Nat.zero_sub _
    · rfl
  obtain ⟨ho, htime, hbuck⟩ := RateLimiter.processMessage_single_zclock
    k (RateLimiterBucket.mkDefault t0 d) cost t i hd
  rw [hcontrib, Nat.add_zero] at htime hbuck
  rw [rollAt_idem] at hbuck
  have hamount : (rollAt t (RateLimiterBucket.mkDefault t0 d)).amount
      = 0 :=
    Nat.le_zero.mp (rollAt_amount_le t (RateLimiterBucket.mkDefault t0 d))
  have hlimit : (rollAt t (RateLimiterBucket.mkDefault t0 d)).limit = 0 :=
    rollAt_limit t (RateLimiterBucket.mkDefault t0 d)
  refine ⟨ho, htime, ⟨_, hbuck, ?_, ?_⟩⟩
  · show (rollAt t (RateLimiterBucket.mkDefault t0 d)).amount + cost
      = cost
    rw [hamount, Nat.zero_add]
  · show (rollAt t (RateLimiterBucket.mkDefault t0 d)).limit
      < (rollAt t (RateLimiterBucket.mkDefault t0 d)).amount + cost
    rw [hamount, hlimit, Nat.zero_add]
    exact hc

/-- Claim C5 witness at a concrete instance. -/
theorem default_bucket_admits_immediately_witness :
    ((0 : Nat) ≤ 7 ∧ (3 : Nat) ≤ 7 ∧ (0 : Nat) < 2) ∧
    (RateLimiter.processMessage [("k", RateLimiterBucket.mkDefault 3 0)]
      [("k", 2)] (zclock 7 0)).2.2 = Except.ok () := by
  refine ⟨by decide, ?_⟩
  exact (default_bucket_admits_immediately "k" 3 0 7 2 0 (by decide)
    (by decide) (by decide)).1

/-- Claim C7: when the wait-computation pass succeeds (every bucket name
of the cost vector resolved), the whole admission succeeds: the commit
pass cannot fail, its undefined-bucket branch being unreachable since the
bucket set is never changed between the two passes. -/
theorem commit_cannot_fail_after_validation (bs : Buckets)
    (costs : List (BucketName × Nat)) (c : Clock) (n : Nat)
    (h : (RateLimiter.timeoutLoop bs costs 0 c).2.2 = Except.ok n) :
    (RateLimiter.processMessage bs costs c).2.2 = Except.ok () := by
  rw [RateLimiter.processMessage_ok _ _ _ _ h]
  refine RateLimiter.set_costsLoop_ok_of_present _ _ _ ?_
  intro p hp
  rw [RateLimiter.timeoutLoop_isSome]
  exact RateLimiter.timeoutLoop_ok_present _ _ _ _ _ h p hp

/-- Claim C7 witness at a concrete instance. -/
theorem commit_cannot_fail_after_validation_witness :
    (RateLimiter.timeoutLoop [("a", ⟨0, 0, 0, 5, 0⟩)] [("a", 1)] 0
      (zclock 0 0)).2.2 = Except.ok 0 ∧
    (RateLimiter.processMessage [("a", ⟨0, 0, 0, 5, 0⟩)] [("a", 1)]
      (zclock 0 0)).2.2 = Except.ok () :=
  ⟨rfl, commit_cannot_fail_after_validation [("a", ⟨0, 0, 0, 5, 0⟩)]
    [("a", 1)] (zclock 0 0) 0 rfl⟩

/-- Claim C8: the commit pass adds the declared cost with no cap check: a
single request whose cost exceeds the bucket's limit is still admitted
after waiting out at most one window (here exactly `interval`), and its
commit leaves `amount = cost > limit` for the rest of the window; the
admission controller never rejects an over-limit cost. -/
theorem overlimit_cost_admitted_after_one_window (k : BucketName)
    (d I L cost t i : Nat) (hd : d ≤ t) (hc : L < cost) :
    (RateLimiter.processMessage [(k, ⟨t, d, I, L, 0⟩)] [(k, cost)]
      (zclock t i)).2.2 = Except.ok () ∧
    (RateLimiter.processMessage [(k, ⟨t, d, I, L, 0⟩)] [(k, cost)]
      (zclock t i)).2.1.time = t + I ∧
    ∃ b2, getBucket (RateLimiter.processMessage [(k, ⟨t, d, I, L, 0⟩)]
        [(k, cost)] (zclock t i)).1 k = some b2
      ∧ b2.amount = cost ∧ b2.limit = L ∧ b2.limit < b2.amount := by
  have hnr : ¬ (⟨t, d, I, L, 0⟩ : RateLimiterBucket).interval
      < t - (⟨t, d, I, L, 0⟩ : RateLimiterBucket).time_instant := by
    show ¬ I < t - t
    omega
  have hcontrib : contribution ⟨t, d, I, L, 0⟩ cost t = I := by
    simp only [contribution]
    rw [rollAt_eq_neg hnr]
    rw [if_pos (by show L < 0 + cost; omega)]
    show I - (t - t) = I
    omega
  obtain ⟨ho, htime, hbuck⟩ := RateLimiter.processMessage_single_zclock
    k ⟨t, d, I, L, 0⟩ cost t i hd
  rw [hcontrib] at htime hbuck
  rw [rollAt_eq_neg hnr] at hbuck
  have hnr2 : ¬ (⟨t, d, I, L, 0⟩ : RateLimiterBucket).interval
      < (t + I) - (⟨t, d, I, L, 0⟩ : RateLimiterBucket).time_instant := by
    show ¬ I < t + I - t
    omega
  rw [rollAt_eq_neg hnr2] at hbuck
  refine ⟨ho, htime, ⟨_, hbuck, ?_, rfl, ?_⟩⟩
  · show (0 : Nat) + cost = cost
    omega
  · show L < 0 + cost
    omega

/-- Claim C8 witness at a concrete instance. -/
theorem overlimit_cost_admitted_after_one_window_witness :
    ((0 : Nat) ≤ 50 ∧ (5 : Nat) < 12) ∧
    (RateLimiter.processMessage [("a", ⟨50, 0, 60, 5, 0⟩)] [("a", 12)]
      (zclock 50 0)).2.1.time = 50 + 60 := by
  refine ⟨by decide, ?_⟩
  exact (overlimit_cost_admitted_after_one_window "a" 0 60 5 12 50 0
    (by decide) (by decide)).2.1

/-- Claim C6: the dispatcher decides admission messages in exactly the
order they were submitted to the queue: in every reachable state of the
dispatcher system the arrival order is the decision order followed by the
still-pending messages in FIFO order, so no later-submitted message is
decided before every earlier one has been fully decided. -/
theorem decisions_follow_submission_order (bs : Buckets) (c : Clock)
    (s : DispatchState) (h : Reachable bs c s) :
    s.arrived = s.decided ++ s.pending.map TaskMsg.id := by
  induction h with
  | init => rfl
  | step hpre hstep ih =>
    cases hstep with
    | submit costs =>
      simp only [List.map_append, List.map_cons, List.map_nil]
      rw [ih, List.append_assoc]
    | consume m rest hp =>
      rw [ih, hp, List.map_cons, List.append_cons]

/-- Claim C6 witness at a concrete reachable state. -/
theorem decisions_follow_submission_order_witness :
    Reachable [] (zclock 0 0)
      ⟨[], zclock 0 0, [⟨0, [("a", 1)]⟩], [0], [], 1⟩ ∧
    ([0] : List Nat)
      = ([] : List Nat)
        ++ ([⟨0, [("a", 1)]⟩] : List TaskMsg).map TaskMsg.id := by
  have hr : Reachable [] (zclock 0 0)
      ⟨[], zclock 0 0, [⟨0, [("a", 1)]⟩], [0], [], 1⟩ :=
    Reachable.step Reachable.init
      (DStep.submit (initState [] (zclock 0 0)) [("a", 1)])
  exact ⟨hr, decisions_follow_submission_order [] (zclock 0 0) _ hr⟩

/-- Claim C10: the wait-computation pass itself mutates bucket state: a
request that fails on an undefined bucket can still have rolled the
window of a valid bucket examined before the failing name
(`time_instant` 0 becomes 100 and `amount` 5 becomes 0 here), though no
amount is ever increased by the failing request. -/
theorem failed_request_can_reset_windows :
    (RateLimiter.processMessage [("a", ⟨0, 0, 10, 5, 5⟩)]
      [("a", 1), ("u", 1)] (zclock 100 0)).2.2
      = Except.error (RLFail.undefinedBucket "u") ∧
    getBucket [("a", (⟨0, 0, 10, 5, 5⟩ : RateLimiterBucket))] "a"
      = some ⟨0, 0, 10, 5, 5⟩ ∧
    getBucket (RateLimiter.processMessage [("a", ⟨0, 0, 10, 5, 5⟩)]
      [("a", 1), ("u", 1)] (zclock 100 0)).1 "a"
      = some ⟨100, 0, 10, 5, 0⟩ :=
  ⟨rfl, rfl, rfl⟩

end ClaimTheorems

